import Mathlib

/-!
# Verification of the trifle-stats time-series engine

A shallow embedding of the Go sources of `trifle_stats_go` (numeric coercion,
packer, granularity parser, Nocturnal time bucketing, packed-merge protocol,
storage-driver write paths, write buffer and orchestration), together with
proofs and refutations of the specification claims about them.

Modelling conventions, stated once:

* Go `map[string]any` values are modelled as association lists in canonical
  insertion order with unique keys (a Go map is unordered; structural equality
  of Go maps corresponds to permutation-insensitive equality, and the
  insertion-order list is a canonical representative; Go's `m[k] = v`
  corresponds to replace-at-first-occurrence-or-append).
* Keys are modelled as `List Char`; Go iterates strings byte-wise, which
  agrees with char-wise iteration on ASCII, and every decision made by the
  embedded code (digit tests, comparisons with ASCII literals, splitting on
  `'.'`) is insensitive to the difference.
* Go `float64` scalars are idealised as exact rationals: the claims under
  study concern merge structure, not rounding.  `toFloat`'s accepted inputs
  (all numeric widths and numeric strings) are represented by `Value.num`,
  its rejected inputs (non-numeric scalars, NaN/Inf carriers) by the other
  scalar constructors.
-/

set_option autoImplicit false
set_option maxRecDepth 8000

namespace TrifleStats

/-- Map keys: Go strings viewed as character lists (ASCII-faithful). -/
abbrev Str := List Char

/-- Dynamic values (`any` in the Go sources): numeric scalars (any Go numeric
representation accepted by `toFloat`, idealised as an exact rational),
non-numeric scalar carriers, arrays and nested string-keyed maps. -/
inductive Value where
  | num (q : ℚ)
  | str (s : Str)
  | boolean (b : Bool)
  | arr (elems : List Value)
  | vmap (entries : List (Str × Value))

instance : Inhabited Value := ⟨Value.num 0⟩

/-- A string-keyed mapping (`map[string]any`). -/
abbrev ValueMap := List (Str × Value)

/-- First-occurrence lookup, the read side of Go's `m[k]`. -/
def assocLookup : ValueMap → Str → Option Value
  | [], _ => none
  | (k, v) :: rest, key => if k = key then some v else assocLookup rest key

/-- Go's `m[k] = v` on the canonical insertion-order representative:
replace the value at the first occurrence of `k`, else append. -/
def assocSet : ValueMap → Str → Value → ValueMap
  | [], key, v => [(key, v)]
  | (k, w) :: rest, key, v =>
      if k = key then (k, v) :: rest else (k, w) :: assocSet rest key v

/-- `src/numeric.go` `toFloat`: numeric representations succeed with their
value; everything else fails.  (`Value.num` stands for exactly the inputs the
Go function accepts — see the header note.) -/
def toFloat : Value → Option ℚ
  | .num q => some q
  | _ => none

/-- `src/numeric.go` `toFloatDefault`. -/
def toFloatDefault (v : Value) (fallback : ℚ) : ℚ :=
  match toFloat v with
  | some f => f
  | none => fallback

/-- `toFloat` applied to a missing map entry (`toFloat(out[key])` where the
key may be absent: Go yields the `nil` interface, which `toFloat` rejects). -/
def toFloatOpt : Option Value → Option ℚ
  | some v => toFloat v
  | none => none

@[simp] theorem assocLookup_nil (key : Str) : assocLookup [] key = none := rfl

@[simp] theorem assocLookup_cons (k : Str) (v : Value) (rest : ValueMap) (key : Str) :
    assocLookup ((k, v) :: rest) key = if k = key then some v else assocLookup rest key := rfl

@[simp] theorem assocSet_nil (key : Str) (v : Value) : assocSet [] key v = [(key, v)] := rfl

@[simp] theorem assocSet_cons (k : Str) (w : Value) (rest : ValueMap) (key : Str) (v : Value) :
    assocSet ((k, w) :: rest) key v =
      if k = key then (k, v) :: rest else (k, w) :: assocSet rest key v := rfl

theorem assocLookup_assocSet_self (m : ValueMap) (key : Str) (v : Value) :
    assocLookup (assocSet m key v) key = some v := by
  induction m with
  | nil => simp [assocSet, assocLookup]
  | cons hd tl ih =>
      obtain ⟨k, w⟩ := hd
      by_cases h : k = key <;> simp [assocSet, assocLookup, h, ih]

theorem assocLookup_assocSet_other (m : ValueMap) (key key' : Str) (v : Value)
    (hne : key ≠ key') :
    assocLookup (assocSet m key v) key' = assocLookup m key' := by
  induction m with
  | nil => simp [assocSet, assocLookup, hne]
  | cons hd tl ih =>
      obtain ⟨k, w⟩ := hd
      by_cases h : k = key
      · subst h
        simp [assocSet, assocLookup, hne]
      · by_cases h' : k = key'
        · subst h'
          simp [assocSet, assocLookup, h]
        · simp [assocSet, assocLookup, h, h', ih]

end TrifleStats

namespace TrifleStats

/-! ## Granularity parser (`src/nocturnal.go`) -/

/-- `Unit` from `src/nocturnal.go`. -/
inductive Unit' where
  | second | minute | hour | day | week | month | quarter | year
  deriving DecidableEq, Repr

/-- The byte test `ch < '0' || ch > '9'` from `ParseGranularity`, negated. -/
def isDigitCh (c : Char) : Bool := '0' ≤ c && c ≤ '9'

/-- The entries of `unitMap` from `src/nocturnal.go`. -/
def unitEntries : List (Str × Unit') :=
  [(['s'], .second), (['m'], .minute), (['h'], .hour), (['d'], .day),
   (['w'], .week), (['m', 'o'], .month), (['q'], .quarter), (['y'], .year)]

/-- `unitMap` from `src/nocturnal.go` as a finite lookup. -/
def unitMap (s : Str) : Option Unit' :=
  (unitEntries.find? (fun e => decide (e.1 = s))).map (·.2)

/-- `atoi` from `src/nocturnal.go`, restricted to the all-digit prefix the
caller feeds it (on which the Go function cannot fail); machine-int overflow
does not affect the parse's success, which is what the claim is about. -/
def atoi (s : Str) : ℕ :=
  s.foldl (fun n ch => n * 10 + (ch.toNat - '0'.toNat)) 0

/-- `ParseGranularity` from `src/nocturnal.go`: scan for the first non-digit
byte; the digits before it form the offset, the remainder must be a unit
suffix.  An all-digit or empty input leaves the unit empty and fails;
a leading non-digit leaves the offset part empty and fails. -/
def ParseGranularity (s : Str) : Option (ℕ × Unit') :=
  let offsetPart := s.takeWhile (fun c => isDigitCh c)
  let unitStr := s.dropWhile (fun c => isDigitCh c)
  if offsetPart = [] then none
  else if unitStr = [] then none
  else match unitMap unitStr with
    | some u => some (atoi offsetPart, u)
    | none => none

/-- `Parser.Valid` from `src/nocturnal.go`: a parser built by `NewParser` is
valid iff the parse succeeded *and* the offset is positive. -/
def parserValid (s : Str) : Bool :=
  match ParseGranularity s with
  | some (offset, _) => decide (0 < offset)
  | none => false

/-- The claim's grammar: one or more ASCII digits followed by a unit suffix
drawn from `{s, m, h, d, w, mo, q, y}`. -/
def GranularityGrammar (s : Str) : Prop :=
  ∃ ds us : Str, s = ds ++ us ∧ ds ≠ [] ∧ (∀ c ∈ ds, isDigitCh c) ∧
    (unitMap us).isSome

theorem takeWhile_append_of_all {p : Char → Bool} (ds us : Str)
    (hds : ∀ c ∈ ds, p c) (hus : ∀ h t, us = h :: t → p h = false) :
    (ds ++ us).takeWhile p = ds ∧ (ds ++ us).dropWhile p = us := by
  induction ds with
  | nil =>
      cases us with
      | nil => simp
      | cons h t =>
          have := hus h t rfl
          simp [List.takeWhile, List.dropWhile, this]
  | cons d ds ih =>
      have hd := hds d (by simp)
      have ih' := ih (fun c hc => hds c (by simp [hc]))
      simp [List.takeWhile, List.dropWhile, hd, ih'.1, ih'.2]

theorem unitMap_mem_keys (us : Str) (h : (unitMap us).isSome) :
    us ∈ unitEntries.map (·.1) := by
  unfold unitMap at h
  cases hfind : unitEntries.find? (fun e => decide (e.1 = us)) with
  | none => rw [hfind] at h; simp at h
  | some e =>
      have hp := List.find?_some hfind
      have hmem := List.mem_of_find?_eq_some hfind
      have : e.1 = us := by simpa using hp
      subst this
      exact List.mem_map_of_mem _ hmem

theorem unitMap_head_not_digit (us : Str) (h : (unitMap us).isSome) :
    ∀ hd t, us = hd :: t → isDigitCh hd = false := by
  have hk := unitMap_mem_keys us h
  simp only [unitEntries, List.map_cons, List.map_nil, List.mem_cons,
    List.not_mem_nil, or_false] at hk
  intro hd t heq
  subst heq
  rcases hk with h1 | h1 | h1 | h1 | h1 | h1 | h1 | h1 <;>
    (simp only [List.cons.injEq] at h1; obtain ⟨rfl, -⟩ := h1; rfl)

/-- **C4, counterexample.**  The claim says `ParseGranularity` returns
`ok = false` on a zero offset such as `"0m"`; the code parses `"0m"`
successfully, returning offset `0`, unit minute and `ok = true`
(the `Offset > 0` rejection only happens later, in `Parser.Valid`). -/
theorem parseGranularity_zero_offset_is_ok :
    ParseGranularity ['0', 'm'] = some (0, Unit'.minute) := by rfl

/-- **C4 (amended).**  `ParseGranularity` returns `ok = true` exactly when the
input consists of one or more ASCII digits followed by a unit suffix in
`{s, m, h, d, w, mo, q, y}` — a zero offset such as `"0m"` included; the
strict-positivity check on the offset is performed by `Parser.Valid`, which
rejects `"0m"`, not by `ParseGranularity`. -/
theorem parseGranularity_ok_iff_grammar :
    (∀ s : Str, (ParseGranularity s).isSome ↔ GranularityGrammar s) ∧
      parserValid ['0', 'm'] = false := by
  refine ⟨fun s => ?_, by rfl⟩
  constructor
  · intro h
    unfold ParseGranularity at h
    by_cases h1 : s.takeWhile (fun c => isDigitCh c) = []
    · simp [h1] at h
    by_cases h2 : s.dropWhile (fun c => isDigitCh c) = []
    · simp [h1, h2] at h
    cases hu : unitMap (s.dropWhile (fun c => isDigitCh c)) with
    | none => simp [h1, h2, hu] at h
    | some u =>
        refine ⟨s.takeWhile (fun c => isDigitCh c), s.dropWhile (fun c => isDigitCh c),
          (List.takeWhile_append_dropWhile ..).symm, h1, ?_, by simp [hu]⟩
        intro c hc
        exact List.mem_takeWhile_imp hc
  · rintro ⟨ds, us, rfl, hne, hdig, hsome⟩
    have hus : ∀ hd t, us = hd :: t → isDigitCh hd = false :=
      unitMap_head_not_digit us hsome
    obtain ⟨htake, hdrop⟩ :=
      takeWhile_append_of_all (p := fun c => isDigitCh c) ds us
        (fun c hc => hdig c hc)
        (fun hd t ht => hus hd t ht)
    have husne : us ≠ [] := by
      rintro rfl
      simp [unitMap, unitEntries] at hsome
    unfold ParseGranularity
    rw [htake, hdrop]
    simp only [hne, husne, if_false]
    cases hu : unitMap us with
    | none => rw [hu] at hsome; simp at hsome
    | some u => simp

/-- **C4, witness for the amended theorem**: `"15m"` matches the grammar and
parses successfully. -/
theorem parseGranularity_ok_iff_grammar_witness :
    (ParseGranularity ['1', '5', 'm']).isSome :=
  (parseGranularity_ok_iff_grammar.1 ['1', '5', 'm']).mpr
    ⟨['1', '5'], ['m'], by rfl, by simp, by decide, by rfl⟩

/-! ## Packed merge protocol (`mergePackedValues`, `src/transponder.go`)

The Go function first deep-copies the existing map (`out := cloneMap(existing)`)
and then mutates `out`; in a pure value semantics a deep copy is the value
itself, so the copy is elided and the loops thread the map explicitly. -/

/-- The `"inc"` loop of `mergePackedValues`: each incoming value must coerce to
a float (otherwise the whole merge fails); the stored value becomes
`base + delta`, where `base` is the coercion of the currently stored value and
`0` when the key is absent or its value is non-numeric. -/
def mergePackedInc : ValueMap → ValueMap → Except String ValueMap
  | out, [] => .ok out
  | out, (key, value) :: rest =>
      match toFloat value with
      | none => .error "increment requires numeric value"
      | some delta =>
          let base : ℚ :=
            match toFloatOpt (assocLookup out key) with
            | some existingValue => existingValue
            | none => 0
          mergePackedInc (assocSet out key (.num (base + delta))) rest

/-- The `"set"` loop of `mergePackedValues`: each incoming key is assigned its
incoming value; nothing else is touched. -/
def mergePackedSet : ValueMap → ValueMap → ValueMap
  | out, [] => out
  | out, (key, value) :: rest => mergePackedSet (assocSet out key value) rest

/-- `mergePackedValues` from `src/transponder.go`. -/
def mergePackedValues (existing incoming : ValueMap) (op : String) :
    Except String ValueMap :=
  match op with
  | "inc" => mergePackedInc existing incoming
  | "set" => .ok (mergePackedSet existing incoming)
  | _ => .error "invalid operation"

/-- The `existing_numeric` of the spec: the stored float at a key, or zero when
the key is absent or non-numeric. -/
def existingNumeric (e : ValueMap) (k : Str) : ℚ :=
  (toFloatOpt (assocLookup e k)).getD 0

theorem mergePackedInc_lookup_not_mem (i : ValueMap) :
    ∀ (out m : ValueMap) (k : Str), k ∉ i.map Prod.fst →
      mergePackedInc out i = .ok m → assocLookup m k = assocLookup out k := by
  induction i with
  | nil =>
      intro out m k _ h
      cases h
      rfl
  | cons hd rest ih =>
      intro out m k hk h
      obtain ⟨key, value⟩ := hd
      simp only [List.map_cons, List.mem_cons, not_or] at hk
      obtain ⟨hk1, hk2⟩ := hk
      rw [mergePackedInc] at h
      cases hv : toFloat value with
      | none => rw [hv] at h; cases h
      | some delta =>
          rw [hv] at h
          have := ih _ m k hk2 h
          rw [this, assocLookup_assocSet_other _ _ _ _ (fun he => hk1 he.symm)]

theorem mergePackedSet_lookup_not_mem (i : ValueMap) :
    ∀ (out : ValueMap) (k : Str), k ∉ i.map Prod.fst →
      assocLookup (mergePackedSet out i) k = assocLookup out k := by
  induction i with
  | nil => intro out k _; rfl
  | cons hd rest ih =>
      intro out k hk
      obtain ⟨key, value⟩ := hd
      simp only [List.map_cons, List.mem_cons, not_or] at hk
      obtain ⟨hk1, hk2⟩ := hk
      rw [mergePackedSet, ih _ _ hk2,
        assocLookup_assocSet_other _ _ _ _ (fun he => hk1 he.symm)]

theorem mergePackedSet_lookup_mem (i : ValueMap) (hnd : (i.map Prod.fst).Nodup) :
    ∀ (out : ValueMap) (k : Str) (v : Value), (k, v) ∈ i →
      assocLookup (mergePackedSet out i) k = some v := by
  induction i with
  | nil => intro out k v h; cases h
  | cons hd rest ih =>
      intro out k v hmem
      obtain ⟨key, value⟩ := hd
      simp only [List.map_cons, List.nodup_cons] at hnd
      rcases List.mem_cons.mp hmem with heq | hrest
      · simp only [Prod.mk.injEq] at heq
        obtain ⟨rfl, rfl⟩ := heq
        rw [mergePackedSet,
          mergePackedSet_lookup_not_mem rest _ _ (by exact fun hc => hnd.1 hc),
          assocLookup_assocSet_self]
      · exact ih hnd.2 _ _ _ hrest

theorem assocSet_lookup_isSome (m : ValueMap) (key k : Str) (v : Value)
    (h : (assocLookup m k).isSome) : (assocLookup (assocSet m key v) k).isSome := by
  by_cases he : key = k
  · subst he; simp [assocLookup_assocSet_self]
  · rwa [assocLookup_assocSet_other _ _ _ _ he]

theorem mergePackedSet_lookup_isSome (i : ValueMap) :
    ∀ (out : ValueMap) (k : Str), (assocLookup out k).isSome →
      (assocLookup (mergePackedSet out i) k).isSome := by
  induction i with
  | nil => intro out k h; exact h
  | cons hd rest ih =>
      intro out k h
      obtain ⟨key, value⟩ := hd
      exact ih _ _ (assocSet_lookup_isSome _ _ _ _ h)

theorem mergePackedInc_spec_aux (i : ValueMap) :
    ∀ (out e m : ValueMap), (i.map Prod.fst).Nodup →
      (∀ k, k ∈ i.map Prod.fst → assocLookup out k = assocLookup e k) →
      mergePackedInc out i = .ok m →
      ∀ k v, (k, v) ∈ i → ∃ d, toFloat v = some d ∧
        assocLookup m k = some (.num (existingNumeric e k + d)) := by
  induction i with
  | nil => intro out e m _ _ _ k v h; cases h
  | cons hd rest ih =>
      intro out e m hnd hagree hrun k v hmem
      obtain ⟨key, value⟩ := hd
      simp only [List.map_cons, List.nodup_cons] at hnd
      rw [mergePackedInc] at hrun
      cases hv : toFloat value with
      | none => rw [hv] at hrun; cases hrun
      | some delta =>
          rw [hv] at hrun
          rcases List.mem_cons.mp hmem with heq | hrest
          · simp only [Prod.mk.injEq] at heq
            obtain ⟨rfl, rfl⟩ := heq
            refine ⟨delta, hv, ?_⟩
            have hpres := mergePackedInc_lookup_not_mem rest _ m k
              (by exact fun hc => hnd.1 hc) hrun
            rw [hpres, assocLookup_assocSet_self]
            have : assocLookup out k = assocLookup e k :=
              hagree k (List.mem_cons_self _ _)
            unfold existingNumeric
            rw [this]
            cases toFloatOpt (assocLookup e k) <;> rfl
          · refine ih _ e m hnd.2 ?_ hrun k v hrest
            intro k' hk'
            have hne : key ≠ k' := fun he => hnd.1 (he ▸ hk')
            rw [assocLookup_assocSet_other _ _ _ _ hne]
            exact hagree k' (List.mem_cons_of_mem _ hk')

theorem mergePackedInc_ok_iff (i : ValueMap) :
    ∀ out : ValueMap, (∃ m, mergePackedInc out i = .ok m) ↔
      ∀ k v, (k, v) ∈ i → (toFloat v).isSome := by
  induction i with
  | nil =>
      intro out
      constructor
      · intro _ k v h; cases h
      · intro _; exact ⟨out, rfl⟩
  | cons hd rest ih =>
      intro out
      obtain ⟨key, value⟩ := hd
      rw [mergePackedInc]
      cases hv : toFloat value with
      | none =>
          constructor
          · rintro ⟨m, hm⟩; cases hm
          · intro hall
            have := hall key value (by simp)
            rw [hv] at this
            cases this
      | some delta =>
          constructor
          · rintro ⟨m, hm⟩ k v hmem
            rcases List.mem_cons.mp hmem with heq | hrest
            · simp only [Prod.mk.injEq] at heq
              obtain ⟨rfl, rfl⟩ := heq
              simp [hv]
            · exact ((ih _).mp ⟨m, hm⟩) k v hrest
          · intro hall
            exact (ih _).mpr (fun k v h => hall k v (List.mem_cons_of_mem _ h))

/-- **C2, counterexample.**  With an existing stored value `a = -5` and an
incoming increment `a += 1`, the code stores `-5 + 1 = -4`; the claim's
`max(0, existing_numeric) + delta` would give `max(0, -5) + 1 = 1`.  The code
never clamps the existing value at zero. -/
theorem mergePackedValues_no_zero_clamp :
    mergePackedValues [(['a'], .num (-5))] [(['a'], .num 1)] "inc" =
        .ok [(['a'], Value.num (-4))] ∧
      ((-4 : ℚ) ≠ max 0 (-5) + 1) := by
  constructor
  · show Except.ok (assocSet _ _ _) = _
    norm_num [assocSet, assocLookup, toFloatOpt, toFloat]
  · norm_num

/-- **C2 (amended).**  Merging under `inc`: if any incoming value is not
representable as a float the entire merge fails, and it succeeds exactly when
all incoming values are numeric; on success every incoming key stores
`existing_numeric + delta` — with *no* `max(0, ·)` clamp — where
`existing_numeric` is the currently stored float, or zero when the key is
absent or its stored value is non-numeric; keys not mentioned by the incoming
map are untouched. -/
theorem mergePackedValues_inc_spec (e i : ValueMap)
    (hnd : (i.map Prod.fst).Nodup) :
    ((∃ m, mergePackedValues e i "inc" = .ok m) ↔
        ∀ k v, (k, v) ∈ i → (toFloat v).isSome) ∧
    (∀ m, mergePackedValues e i "inc" = .ok m →
      (∀ k v, (k, v) ∈ i → ∃ d, toFloat v = some d ∧
          assocLookup m k = some (.num (existingNumeric e k + d))) ∧
      (∀ k, k ∉ i.map Prod.fst → assocLookup m k = assocLookup e k)) := by
  constructor
  · exact mergePackedInc_ok_iff i e
  · intro m hm
    exact ⟨mergePackedInc_spec_aux i e e m hnd (fun _ _ => rfl) hm,
      fun k hk => mergePackedInc_lookup_not_mem i e m k hk hm⟩

/-- **C2, witness**: incrementing `c` by `2` over a record holding `c = 1`
succeeds and stores the sum on top of the existing numeric. -/
theorem mergePackedValues_inc_spec_witness :
    (([(['c'], Value.num 2)] : ValueMap).map Prod.fst).Nodup ∧
      (∃ d, toFloat (Value.num 2) = some d ∧
        assocLookup [(['c'], Value.num (existingNumeric [(['c'], Value.num 1)] ['c'] + 2))]
            ['c'] =
          some (.num (existingNumeric [(['c'], Value.num 1)] ['c'] + d))) :=
  ⟨by simp,
    ((mergePackedValues_inc_spec [(['c'], .num 1)] [(['c'], .num 2)] (by simp)).2
      [(['c'], Value.num (existingNumeric [(['c'], Value.num 1)] ['c'] + 2))] rfl).1
      ['c'] (.num 2) (by simp)⟩

/-- **C6.**  Merging under `set`: every incoming key is replaced by its
incoming value, every existing key absent from the incoming map keeps its
prior value, and no stored key is ever deleted; in particular
`Set({a:1})` followed by `Set({b:2})` leaves both `a` and `b` present. -/
theorem mergePackedValues_set_spec (e i : ValueMap)
    (hnd : (i.map Prod.fst).Nodup) :
    (∀ m, mergePackedValues e i "set" = .ok m →
      (∀ k v, (k, v) ∈ i → assocLookup m k = some v) ∧
      (∀ k, k ∉ i.map Prod.fst → assocLookup m k = assocLookup e k) ∧
      (∀ k, (assocLookup e k).isSome → (assocLookup m k).isSome)) ∧
    (assocLookup
        (mergePackedSet (mergePackedSet [] [(['a'], .num 1)]) [(['b'], .num 2)])
        ['a'] = some (.num 1) ∧
      assocLookup
        (mergePackedSet (mergePackedSet [] [(['a'], .num 1)]) [(['b'], .num 2)])
        ['b'] = some (.num 2)) := by
  refine ⟨fun m hm => ?_, by constructor <;> rfl⟩
  have : m = mergePackedSet e i := by
    unfold mergePackedValues at hm
    injection hm with h
    exact h.symm
  subst this
  exact ⟨fun k v h => mergePackedSet_lookup_mem i hnd e k v h,
    fun k hk => mergePackedSet_lookup_not_mem i e k hk,
    fun k h => mergePackedSet_lookup_isSome i e k h⟩

/-- **C6, witness**: setting `b = 2` over a record holding `a = 1` keeps `a`
and stores `b`. -/
theorem mergePackedValues_set_spec_witness :
    (([(['b'], Value.num 2)] : ValueMap).map Prod.fst).Nodup ∧
      assocLookup [(['a'], Value.num 1), (['b'], Value.num 2)] ['a'] =
        assocLookup [(['a'], Value.num 1)] ['a'] :=
  ⟨by simp,
    ((mergePackedValues_set_spec [(['a'], .num 1)] [(['b'], .num 2)] (by simp)).1
      [(['a'], Value.num 1), (['b'], Value.num 2)] rfl).2.1 ['a'] (by decide)⟩

/-! ## Packer (`src/unnamed/part_008`): `Pack`, `Unpack`, `deepMerge` -/

/-- `packWithPrefix`: walk the nested mapping; nested maps are spliced in
under the dotted prefix (the empty prefix is not prepended), other values are
emitted verbatim.  With distinct dot-free keys the emitted flat keys are
distinct, so Go's `out[pk] = pv` accumulation is list concatenation. -/
def packWithPrefix : List (Str × Value) → Str → ValueMap
  | [], _ => []
  | (k, .vmap sub) :: rest, pre =>
      packWithPrefix sub (if pre = [] then k else pre ++ '.' :: k) ++
        packWithPrefix rest pre
  | (k, v) :: rest, pre =>
      ((if pre = [] then k else pre ++ '.' :: k), v) :: packWithPrefix rest pre

/-- `Pack` from `src/unnamed/part_008`. -/
def Pack (input : List (Str × Value)) : ValueMap := packWithPrefix input []

theorem packWithPrefix_nil (pre : Str) : packWithPrefix [] pre = [] := by
  rw [packWithPrefix]

theorem packWithPrefix_cons_map (k : Str) (sub : List (Str × Value))
    (rest : List (Str × Value)) (pre : Str) :
    packWithPrefix ((k, .vmap sub) :: rest) pre =
      packWithPrefix sub (if pre = [] then k else pre ++ '.' :: k) ++
        packWithPrefix rest pre := by
  rw [packWithPrefix]

theorem packWithPrefix_cons_nonmap (k : Str) (v : Value)
    (rest : List (Str × Value)) (pre : Str) (h : ∀ sub, v ≠ .vmap sub) :
    packWithPrefix ((k, v) :: rest) pre =
      ((if pre = [] then k else pre ++ '.' :: k), v) :: packWithPrefix rest pre := by
  cases v with
  | vmap sub => exact absurd rfl (h sub)
  | num q => rw [packWithPrefix]; exact fun sub hh => Value.noConfusion hh
  | str s => rw [packWithPrefix]; exact fun sub hh => Value.noConfusion hh
  | boolean b => rw [packWithPrefix]; exact fun sub hh => Value.noConfusion hh
  | arr l => rw [packWithPrefix]; exact fun sub hh => Value.noConfusion hh

/-- `strings.Split(key, ".")`. -/
def splitDot : Str → List Str
  | [] => [[]]
  | c :: rest =>
      match splitDot rest with
      | [] => [[c]]
      | h :: t => if c = '.' then [] :: h :: t else (c :: h) :: t

/-- `buildNested` from `src/unnamed/part_008`. -/
def buildNested : List Str → Value → ValueMap
  | [], _ => []
  | [p], v => [(p, v)]
  | p :: parts, v => [(p, .vmap (buildNested parts v))]

/-- `deepMerge` from `src/unnamed/part_008`: fold the second map into a copy
of the first; map-vs-map collisions recurse, any other collision (or a fresh
key) assigns the incoming value. -/
def deepMergeGo : ValueMap → ValueMap → ValueMap
  | out, [] => out
  | out, (k, .vmap vm) :: rest =>
      (match assocLookup out k with
        | some (.vmap em) =>
            deepMergeGo (assocSet out k (.vmap (deepMergeGo em vm))) rest
        | _ => deepMergeGo (assocSet out k (.vmap vm)) rest)
  | out, (k, v) :: rest => deepMergeGo (assocSet out k v) rest

theorem deepMergeGo_nil (out : ValueMap) : deepMergeGo out [] = out := by
  rw [deepMergeGo]

theorem deepMergeGo_cons_absent (out : ValueMap) (k : Str) (v : Value)
    (rest : ValueMap) (h : assocLookup out k = none) :
    deepMergeGo out ((k, v) :: rest) = deepMergeGo (assocSet out k v) rest := by
  cases v with
  | vmap vm => rw [deepMergeGo, h]
  | num q => rw [deepMergeGo]; exact fun vm hh => Value.noConfusion hh
  | str s => rw [deepMergeGo]; exact fun vm hh => Value.noConfusion hh
  | boolean b => rw [deepMergeGo]; exact fun vm hh => Value.noConfusion hh
  | arr l => rw [deepMergeGo]; exact fun vm hh => Value.noConfusion hh

theorem deepMergeGo_cons_map (out : ValueMap) (k : Str)
    (em vm : List (Str × Value)) (rest : ValueMap)
    (h : assocLookup out k = some (.vmap em)) :
    deepMergeGo out ((k, .vmap vm) :: rest) =
      deepMergeGo (assocSet out k (.vmap (deepMergeGo em vm))) rest := by
  rw [deepMergeGo, h]

/-- The loop of `Unpack`: skip empty keys, split the rest on dots and
deep-merge the resulting nested singleton into the accumulator. -/
def unpackGo : ValueMap → ValueMap → ValueMap
  | out, [] => out
  | out, (key, v) :: rest =>
      if key = [] then unpackGo out rest
      else unpackGo (deepMergeGo out (buildNested (splitDot key) v)) rest

/-- `Unpack` from `src/unnamed/part_008`. -/
def Unpack (input : ValueMap) : ValueMap := unpackGo [] input

mutual

/-- Well-formedness of a nested mapping in the sense of the (amended) claim:
at every level keys are non-empty, dot-free and distinct, and every sub-map
is non-empty (the claim's "leaves are non-map values": an empty map value
would itself be a map-valued leaf) — `wfValue` for values. -/
def wfValue : Value → Bool
  | .vmap m => !m.isEmpty && wfEntries m
  | _ => true

/-- Well-formedness of a nested mapping — `wfEntries` for entry lists;
see `wfValue`. -/
def wfEntries : List (Str × Value) → Bool
  | [] => true
  | (k, v) :: rest =>
      !(k.isEmpty) && decide ('.' ∉ k) && rest.all (fun e => decide (e.1 ≠ k)) &&
        wfValue v && wfEntries rest

end

theorem splitDot_ne_nil (s : Str) : splitDot s ≠ [] := by
  cases s with
  | nil => simp [splitDot]
  | cons c rest =>
      rw [splitDot]
      cases splitDot rest with
      | nil => simp
      | cons h t => by_cases hc : c = '.' <;> simp [hc]

theorem splitDot_no_dot (s : Str) (h : '.' ∉ s) : splitDot s = [s] := by
  induction s with
  | nil => rfl
  | cons c rest ih =>
      simp only [List.mem_cons, not_or] at h
      have hc : ¬ c = '.' := fun he => h.1 he.symm
      rw [splitDot, ih h.2]
      simp [hc]

theorem splitDot_append (k p : Str) (h : '.' ∉ k) :
    splitDot (k ++ '.' :: p) = k :: splitDot p := by
  induction k with
  | nil =>
      rw [List.nil_append, splitDot]
      cases hsp : splitDot p with
      | nil => exact absurd hsp (splitDot_ne_nil p)
      | cons a b => simp
  | cons c rest ih =>
      simp only [List.mem_cons, not_or] at h
      have hc : ¬ c = '.' := fun he => h.1 he.symm
      rw [List.cons_append, splitDot, ih h.2]
      simp [hc]

theorem assocSet_of_lookup_none (m : ValueMap) (k : Str) (v : Value)
    (h : assocLookup m k = none) : assocSet m k v = m ++ [(k, v)] := by
  induction m with
  | nil => rfl
  | cons hd tl ih =>
      obtain ⟨k', w⟩ := hd
      rw [assocLookup_cons] at h
      by_cases he : k' = k
      · rw [if_pos he] at h; cases h
      · rw [if_neg he] at h
        simp [assocSet, he, ih h]

theorem keysOf_not_mem_lookup_none (m : ValueMap) (k : Str)
    (h : k ∉ m.map Prod.fst) : assocLookup m k = none := by
  induction m with
  | nil => rfl
  | cons hd tl ih =>
      obtain ⟨k', w⟩ := hd
      simp only [List.map_cons, List.mem_cons, not_or] at h
      have hne : ¬ k' = k := fun he => h.1 he.symm
      simp [assocLookup, hne, ih h.2]

theorem assocLookup_append_mid (pre post : ValueMap) (k : Str) (w : Value)
    (h : k ∉ pre.map Prod.fst) :
    assocLookup (pre ++ (k, w) :: post) k = some w := by
  induction pre with
  | nil => simp [assocLookup]
  | cons hd tl ih =>
      obtain ⟨k', w'⟩ := hd
      simp only [List.map_cons, List.mem_cons, not_or] at h
      have hne : ¬ k' = k := fun he => h.1 he.symm
      simp [assocLookup, hne, ih h.2]

theorem assocSet_append_mid (pre post : ValueMap) (k : Str) (w v : Value)
    (h : k ∉ pre.map Prod.fst) :
    assocSet (pre ++ (k, w) :: post) k v = pre ++ (k, v) :: post := by
  induction pre with
  | nil => simp [assocSet]
  | cons hd tl ih =>
      obtain ⟨k', w'⟩ := hd
      simp only [List.map_cons, List.mem_cons, not_or] at h
      have hne : ¬ k' = k := fun he => h.1 he.symm
      simp [assocSet, hne, ih h.2]

theorem unpackGo_append (xs ys acc : ValueMap) :
    unpackGo acc (xs ++ ys) = unpackGo (unpackGo acc xs) ys := by
  induction xs generalizing acc with
  | nil => rfl
  | cons hd tl ih =>
      obtain ⟨key, v⟩ := hd
      by_cases hk : key = [] <;> simp [unpackGo, hk, ih]

theorem buildNested_cons (p : Str) (parts : List Str) (v : Value)
    (h : parts ≠ []) :
    buildNested (p :: parts) v = [(p, .vmap (buildNested parts v))] := by
  cases parts with
  | nil => exact absurd rfl h
  | cons a b => rfl

theorem deepMergeGo_singleton_absent (acc : ValueMap) (k : Str) (v : Value)
    (h : assocLookup acc k = none) :
    deepMergeGo acc [(k, v)] = acc ++ [(k, v)] := by
  rw [deepMergeGo_cons_absent acc k v [] h, deepMergeGo_nil]
  exact assocSet_of_lookup_none acc k v h

theorem deepMergeGo_nil_buildNested (parts : List Str) (v : Value)
    (h : parts ≠ []) :
    deepMergeGo [] (buildNested parts v) = buildNested parts v := by
  cases parts with
  | nil => exact absurd rfl h
  | cons a b =>
      cases b with
      | nil => exact deepMergeGo_singleton_absent [] a v rfl
      | cons c d =>
          exact deepMergeGo_singleton_absent [] a _ rfl

theorem wfEntries_cons_iff (k : Str) (v : Value) (rest : List (Str × Value)) :
    wfEntries ((k, v) :: rest) = true ↔
      k ≠ [] ∧ '.' ∉ k ∧ (∀ e ∈ rest, e.1 ≠ k) ∧ wfValue v = true ∧
        wfEntries rest = true := by
  rw [wfEntries]
  simp only [Bool.and_eq_true, List.all_eq_true, decide_eq_true_eq,
    Bool.not_eq_true']
  constructor
  · rintro ⟨⟨⟨⟨h1, h2⟩, h3⟩, h4⟩, h5⟩
    refine ⟨?_, h2, h3, h4, h5⟩
    cases k <;> simp_all
  · rintro ⟨h1, h2, h3, h4, h5⟩
    refine ⟨⟨⟨⟨?_, h2⟩, h3⟩, h4⟩, h5⟩
    cases k <;> simp_all

theorem wfValue_vmap_iff (sub : List (Str × Value)) :
    wfValue (.vmap sub) = true ↔ sub ≠ [] ∧ wfEntries sub = true := by
  cases sub <;> simp [wfValue]

/-- Packing under a non-empty prefix is packing under the empty prefix with
the dotted prefix prepended to every flat key (all keys non-empty). -/
theorem packShift :
    ∀ (m : List (Str × Value)) (p : Str), wfEntries m = true → p ≠ [] →
      packWithPrefix m p =
        (packWithPrefix m []).map (fun e => (p ++ '.' :: e.1, e.2)) := by
  suffices H : ∀ (n : ℕ) (m : List (Str × Value)), sizeOf m ≤ n →
      ∀ p, wfEntries m = true → p ≠ [] →
        packWithPrefix m p =
          (packWithPrefix m []).map (fun e => (p ++ '.' :: e.1, e.2)) by
    exact fun m p h1 h2 => H (sizeOf m) m le_rfl p h1 h2
  intro n
  induction n with
  | zero =>
      intro m hm
      exfalso
      cases m <;> simp at hm
  | succ n ih =>
      intro m hm p hwf hp
      match m with
      | [] => simp [packWithPrefix_nil]
      | (k, v) :: rest =>
          obtain ⟨hk, hdot, hnodup, hv, hrest⟩ := (wfEntries_cons_iff ..).mp hwf
          have hsize_rest : sizeOf rest ≤ n := by
            simp at hm; omega
          cases v with
          | vmap sub =>
              obtain ⟨hsub_ne, hsub_wf⟩ := (wfValue_vmap_iff sub).mp hv
              have hsize_sub : sizeOf sub ≤ n := by
                simp at hm; omega
              rw [packWithPrefix_cons_map, packWithPrefix_cons_map]
              simp only [hp, hk, reduceIte, if_neg]
              rw [ih sub hsize_sub (p ++ '.' :: k) hsub_wf (by simp),
                ih sub hsize_sub k hsub_wf hk,
                ih rest hsize_rest p hrest hp,
                List.map_append, List.map_map]
              congr 1
              apply List.map_congr_left
              intro e _
              simp [List.append_assoc]
          | num q =>
              rw [packWithPrefix_cons_nonmap _ _ _ _ (fun _ hh => Value.noConfusion hh),
                packWithPrefix_cons_nonmap _ _ _ _ (fun _ hh => Value.noConfusion hh),
                ih rest hsize_rest p hrest hp]
              simp [hp, hk]
          | str s =>
              rw [packWithPrefix_cons_nonmap _ _ _ _ (fun _ hh => Value.noConfusion hh),
                packWithPrefix_cons_nonmap _ _ _ _ (fun _ hh => Value.noConfusion hh),
                ih rest hsize_rest p hrest hp]
              simp [hp, hk]
          | boolean b =>
              rw [packWithPrefix_cons_nonmap _ _ _ _ (fun _ hh => Value.noConfusion hh),
                packWithPrefix_cons_nonmap _ _ _ _ (fun _ hh => Value.noConfusion hh),
                ih rest hsize_rest p hrest hp]
              simp [hp, hk]
          | arr l =>
              rw [packWithPrefix_cons_nonmap _ _ _ _ (fun _ hh => Value.noConfusion hh),
                packWithPrefix_cons_nonmap _ _ _ _ (fun _ hh => Value.noConfusion hh),
                ih rest hsize_rest p hrest hp]
              simp [hp, hk]

/-- Every key emitted by `Pack` on a well-formed mapping is non-empty. -/
theorem pack_keys_ne (m : List (Str × Value)) (hwf : wfEntries m = true) :
    ∀ e ∈ packWithPrefix m [], e.1 ≠ [] := by
  induction m with
  | nil => intro e he; rw [packWithPrefix_nil] at he; cases he
  | cons hd rest ih =>
      obtain ⟨k, v⟩ := hd
      intro e he
      obtain ⟨hk, hdot, hnodup, hv, hrest⟩ := (wfEntries_cons_iff ..).mp hwf
      cases v with
      | vmap sub =>
          obtain ⟨hsub_ne, hsub_wf⟩ := (wfValue_vmap_iff sub).mp hv
          rw [packWithPrefix_cons_map] at he
          simp only [reduceIte] at he
          rcases List.mem_append.mp he with hin | hin
          · rw [packShift sub k hsub_wf hk] at hin
            obtain ⟨e', _, rfl⟩ := List.mem_map.mp hin
            cases k <;> simp
          · exact ih hrest e hin
      | num q =>
          rw [packWithPrefix_cons_nonmap _ _ _ _ (fun _ hh => Value.noConfusion hh)] at he
          rcases List.mem_cons.mp he with rfl | hin
          · simpa using hk
          · exact ih hrest e hin
      | str s =>
          rw [packWithPrefix_cons_nonmap _ _ _ _ (fun _ hh => Value.noConfusion hh)] at he
          rcases List.mem_cons.mp he with rfl | hin
          · simpa using hk
          · exact ih hrest e hin
      | boolean b =>
          rw [packWithPrefix_cons_nonmap _ _ _ _ (fun _ hh => Value.noConfusion hh)] at he
          rcases List.mem_cons.mp he with rfl | hin
          · simpa using hk
          · exact ih hrest e hin
      | arr l =>
          rw [packWithPrefix_cons_nonmap _ _ _ _ (fun _ hh => Value.noConfusion hh)] at he
          rcases List.mem_cons.mp he with rfl | hin
          · simpa using hk
          · exact ih hrest e hin

/-- `Pack` of a non-empty well-formed mapping is non-empty. -/
theorem pack_ne :
    ∀ (m : List (Str × Value)), wfEntries m = true → m ≠ [] →
      packWithPrefix m [] ≠ [] := by
  suffices H : ∀ (n : ℕ) (m : List (Str × Value)), sizeOf m ≤ n →
      wfEntries m = true → m ≠ [] → packWithPrefix m [] ≠ [] by
    exact fun m h1 h2 => H (sizeOf m) m le_rfl h1 h2
  intro n
  induction n with
  | zero =>
      intro m hm
      exfalso
      cases m <;> simp at hm
  | succ n ih =>
      intro m hm hwf hne
      match m with
      | (k, v) :: rest =>
          obtain ⟨hk, hdot, hnodup, hv, hrest⟩ := (wfEntries_cons_iff ..).mp hwf
          cases v with
          | vmap sub =>
              obtain ⟨hsub_ne, hsub_wf⟩ := (wfValue_vmap_iff sub).mp hv
              have hsize_sub : sizeOf sub ≤ n := by
                simp at hm; omega
              rw [packWithPrefix_cons_map]
              simp only [reduceIte]
              rw [packShift sub k hsub_wf hk]
              intro hcontra
              have hmap := (List.append_eq_nil.mp hcontra).1
              rw [List.map_eq_nil] at hmap
              exact ih sub hsize_sub hsub_wf hsub_ne hmap
          | num q =>
              rw [packWithPrefix_cons_nonmap _ _ _ _ (fun _ hh => Value.noConfusion hh)]
              simp
          | str s =>
              rw [packWithPrefix_cons_nonmap _ _ _ _ (fun _ hh => Value.noConfusion hh)]
              simp
          | boolean b =>
              rw [packWithPrefix_cons_nonmap _ _ _ _ (fun _ hh => Value.noConfusion hh)]
              simp
          | arr l =>
              rw [packWithPrefix_cons_nonmap _ _ _ _ (fun _ hh => Value.noConfusion hh)]
              simp

/-- Unpacking a block whose keys all carry the dotted prefix `k.` merges the
whole block into the map stored at `k`, leaving everything else in place. -/
theorem unpack_shift_block (ps : ValueMap) :
    ∀ (pre post W : ValueMap) (k : Str), '.' ∉ k → k ∉ pre.map Prod.fst →
      (∀ e ∈ ps, e.1 ≠ []) →
      unpackGo (pre ++ (k, .vmap W) :: post)
          (ps.map (fun e => (k ++ '.' :: e.1, e.2))) =
        pre ++ (k, .vmap (unpackGo W ps)) :: post := by
  induction ps with
  | nil => intro pre post W k _ _ _; rfl
  | cons hd tl ih =>
      intro pre post W k hdot hpre hkeys
      obtain ⟨e1, v⟩ := hd
      have he1 : e1 ≠ [] := hkeys (e1, v) (List.mem_cons_self _ _)
      have hkey_ne : k ++ '.' :: e1 ≠ [] := by
        cases k <;> simp
      rw [List.map_cons, unpackGo, if_neg hkey_ne,
        splitDot_append k e1 hdot,
        buildNested_cons k (splitDot e1) v (splitDot_ne_nil e1)]
      have hstep : deepMergeGo (pre ++ (k, Value.vmap W) :: post)
          [(k, Value.vmap (buildNested (splitDot e1) v))] =
          pre ++ (k, Value.vmap
            (deepMergeGo W (buildNested (splitDot e1) v))) :: post := by
        rw [deepMergeGo_cons_map _ _ _ _ _
            (assocLookup_append_mid pre post k _ hpre),
          deepMergeGo_nil]
        exact assocSet_append_mid pre post k _ _ hpre
      rw [hstep, ih pre post _ k hdot hpre
        (fun e he => hkeys e (List.mem_cons_of_mem _ he))]
      rw [unpackGo, if_neg he1]

/-- The central round-trip invariant: unpacking the packed form of a
well-formed mapping onto an accumulator with disjoint keys appends the
mapping verbatim. -/
theorem unpack_pack_aux :
    ∀ (m : List (Str × Value)), wfEntries m = true →
      ∀ acc : ValueMap, (∀ kk ∈ m.map Prod.fst, kk ∉ acc.map Prod.fst) →
        unpackGo acc (packWithPrefix m []) = acc ++ m := by
  suffices H : ∀ (n : ℕ) (m : List (Str × Value)), sizeOf m ≤ n →
      wfEntries m = true →
      ∀ acc : ValueMap, (∀ kk ∈ m.map Prod.fst, kk ∉ acc.map Prod.fst) →
        unpackGo acc (packWithPrefix m []) = acc ++ m by
    exact fun m h1 acc h2 => H (sizeOf m) m le_rfl h1 acc h2
  intro n
  induction n with
  | zero =>
      intro m hm
      exfalso
      cases m <;> simp at hm
  | succ n ih =>
      intro m hm hwf acc hacc
      match m with
      | [] => simp [packWithPrefix_nil, unpackGo]
      | (k, v) :: rest =>
          obtain ⟨hk, hdot, hnodup, hv, hrest⟩ := (wfEntries_cons_iff ..).mp hwf
          have hsize_rest : sizeOf rest ≤ n := by
            simp at hm; omega
          have hacck : k ∉ acc.map Prod.fst := hacc k (List.mem_cons_self _ _)
          have hlook : assocLookup acc k = none :=
            keysOf_not_mem_lookup_none _ _ hacck
          have hrest_acc : ∀ (w : Value) (kk : Str), kk ∈ rest.map Prod.fst →
              kk ∉ (acc ++ [(k, w)]).map Prod.fst := by
            intro w kk hkk
            have h1 : kk ∉ acc.map Prod.fst := hacc kk (List.mem_cons_of_mem _ hkk)
            have h2 : kk ≠ k := by
              obtain ⟨e, he, rfl⟩ := List.mem_map.mp hkk
              exact hnodup e he
            simp only [List.map_append, List.mem_append, not_or]
            exact ⟨h1, by simp [h2]⟩
          cases v with
          | vmap sub =>
              obtain ⟨hsub_ne, hsub_wf⟩ := (wfValue_vmap_iff sub).mp hv
              have hsize_sub : sizeOf sub ≤ n := by
                simp at hm; omega
              rw [packWithPrefix_cons_map]
              simp only [reduceIte]
              rw [unpackGo_append, packShift sub k hsub_wf hk]
              have hkeys_ps := pack_keys_ne sub hsub_wf
              cases hps : packWithPrefix sub [] with
              | nil => exact absurd hps (pack_ne sub hsub_wf hsub_ne)
              | cons p1 ps' =>
                  obtain ⟨p1k, p1v⟩ := p1
                  have hp1k : p1k ≠ [] :=
                    hkeys_ps (p1k, p1v) (by rw [hps]; exact List.mem_cons_self _ _)
                  have hkey_ne : k ++ '.' :: p1k ≠ [] := by cases k <;> simp
                  rw [List.map_cons, unpackGo, if_neg hkey_ne,
                    splitDot_append k p1k hdot,
                    buildNested_cons k (splitDot p1k) p1v (splitDot_ne_nil p1k)]
                  rw [deepMergeGo_singleton_absent acc k _ hlook]
                  rw [unpack_shift_block ps' acc []
                    (buildNested (splitDot p1k) p1v) k hdot hacck
                    (fun e he => hkeys_ps e (by rw [hps]; exact List.mem_cons_of_mem _ he))]
                  have hinner : unpackGo (buildNested (splitDot p1k) p1v) ps' =
                      unpackGo [] (packWithPrefix sub []) := by
                    rw [hps, unpackGo, if_neg hp1k,
                      deepMergeGo_nil_buildNested _ _ (splitDot_ne_nil p1k)]
                  rw [hinner, ih sub hsize_sub hsub_wf [] (by simp)]
                  simp only [List.nil_append]
                  rw [ih rest hsize_rest hrest (acc ++ [(k, Value.vmap sub)])
                    (hrest_acc (Value.vmap sub))]
                  simp
          | num q =>
              rw [packWithPrefix_cons_nonmap _ _ _ _ (fun _ hh => Value.noConfusion hh)]
              simp only [reduceIte]
              rw [unpackGo, if_neg hk, splitDot_no_dot k hdot]
              have hbn : buildNested [k] (Value.num q) = [(k, Value.num q)] := rfl
              rw [hbn, deepMergeGo_singleton_absent acc k _ hlook,
                ih rest hsize_rest hrest _ (hrest_acc (Value.num q))]
              simp
          | str s =>
              rw [packWithPrefix_cons_nonmap _ _ _ _ (fun _ hh => Value.noConfusion hh)]
              simp only [reduceIte]
              rw [unpackGo, if_neg hk, splitDot_no_dot k hdot]
              have hbn : buildNested [k] (Value.str s) = [(k, Value.str s)] := rfl
              rw [hbn, deepMergeGo_singleton_absent acc k _ hlook,
                ih rest hsize_rest hrest _ (hrest_acc (Value.str s))]
              simp
          | boolean b =>
              rw [packWithPrefix_cons_nonmap _ _ _ _ (fun _ hh => Value.noConfusion hh)]
              simp only [reduceIte]
              rw [unpackGo, if_neg hk, splitDot_no_dot k hdot]
              have hbn : buildNested [k] (Value.boolean b) = [(k, Value.boolean b)] := rfl
              rw [hbn, deepMergeGo_singleton_absent acc k _ hlook,
                ih rest hsize_rest hrest _ (hrest_acc (Value.boolean b))]
              simp
          | arr l =>
              rw [packWithPrefix_cons_nonmap _ _ _ _ (fun _ hh => Value.noConfusion hh)]
              simp only [reduceIte]
              rw [unpackGo, if_neg hk, splitDot_no_dot k hdot]
              have hbn : buildNested [k] (Value.arr l) = [(k, Value.arr l)] := rfl
              rw [hbn, deepMergeGo_singleton_absent acc k _ hlook,
                ih rest hsize_rest hrest _ (hrest_acc (Value.arr l))]
              simp

/-! ## Nocturnal time bucketing (`src/nocturnal.go`)

The Go code converts the instant into the configured zone and then operates
on civil fields (`Year()`, `Month()`, …, `time.Date`, `AddDate`).  The model
represents an instant in a fixed-offset zone (the default configuration's
GMT/UTC; DST-less zones are the ones the civil arithmetic of `Floor`/`Add` is
exact in) by its civil coordinates at second precision: proleptic Gregorian
year, zero-based day-of-year and seconds-into-day.  Absolute time
(`Before`/`After`/`Sub`, Go's internal representation) is recovered by
`absSec`.  `Sub(..).Hours()/(24*7)` truncated to `int` is modelled as exact
integer division: for second-precision instants within one year the float64
computation provably agrees with the exact value (the nearest boundary is
1/3600 hour away, far above the ~1e-12 hour rounding error). -/

/-- Go's proleptic-Gregorian leap-year rule. -/
def isLeap (y : ℤ) : Bool :=
  y % 4 = 0 && (y % 100 ≠ 0 || y % 400 = 0)

/-- Month lengths (`daysInMonth` in `src/nocturnal.go`, which computes the
same table via `time.Date(y, month+1, 0)`). -/
def monthLen (leap : Bool) : ℕ → ℕ
  | 1 => 31
  | 2 => if leap then 29 else 28
  | 3 => 31
  | 4 => 30
  | 5 => 31
  | 6 => 30
  | 7 => 31
  | 8 => 31
  | 9 => 30
  | 10 => 31
  | 11 => 30
  | 12 => 31
  | _ => 0

/-- Days before the first of month `m` within a year. -/
def cumBefore (leap : Bool) : ℕ → ℕ
  | 0 => 0
  | m + 1 => cumBefore leap m + monthLen leap m

/-- Days in a year of the given leap shape. -/
def daysInYearB (leap : Bool) : ℕ := if leap then 366 else 365

/-- Days in the year containing `y`. -/
def daysInYear (y : ℤ) : ℕ := daysInYearB (isLeap y)

/-- Zero-based day-of-year of a (month, day) pair. -/
def yearDayOf (leap : Bool) (mo d : ℕ) : ℕ := cumBefore leap mo + (d - 1)

/-- Walk the month table to recover (month, day) from a zero-based
day-of-year (how Go's `time.Time.Month`/`Day` read off the instant). -/
def monthDayGo (leap : Bool) : ℕ → ℕ → ℕ → ℕ × ℕ
  | 0, mo, n => (mo, n + 1)
  | fuel + 1, mo, n =>
      if n < monthLen leap mo then (mo, n + 1)
      else monthDayGo leap fuel (mo + 1) (n - monthLen leap mo)

/-- (month, day) of a zero-based day-of-year. -/
def monthDayFromYearDay (leap : Bool) (n : ℕ) : ℕ × ℕ :=
  monthDayGo leap 11 1 n

/-- An instant in the configured fixed-offset zone, at second precision:
civil year, zero-based day-of-year, seconds into the day. -/
structure DateTime where
  year : ℤ
  yd : ℕ
  tod : ℕ
  deriving DecidableEq, Repr

/-- In-range civil coordinates. -/
def ValidDT (t : DateTime) : Prop :=
  t.yd < daysInYear t.year ∧ t.tod < 86400

instance (t : DateTime) : Decidable (ValidDT t) := by
  unfold ValidDT; infer_instance

/-- `t.Month()`. -/
def tMonth (t : DateTime) : ℕ := (monthDayFromYearDay (isLeap t.year) t.yd).1

/-- `t.Day()`. -/
def tDay (t : DateTime) : ℕ := (monthDayFromYearDay (isLeap t.year) t.yd).2

/-- `t.Hour()`. -/
def tHour (t : DateTime) : ℕ := t.tod / 3600

/-- `t.Minute()`. -/
def tMinute (t : DateTime) : ℕ := t.tod % 3600 / 60

/-- `t.Second()`. -/
def tSecond (t : DateTime) : ℕ := t.tod % 60

/-- `t.YearDay()` (one-based). -/
def tYearDay (t : DateTime) : ℕ := t.yd + 1

/-- `time.Date(y, mo, d, h, mi, s, 0, loc)` for in-range fields. -/
def goDate (y : ℤ) (mo d h mi s : ℕ) : DateTime :=
  ⟨y, yearDayOf (isLeap y) mo d, h * 3600 + mi * 60 + s⟩

/-- Day number of January 1st of year `y` on a fixed epoch (any origin with
the correct year-length recurrence; used for weekday and absolute time). -/
def D (y : ℤ) : ℤ :=
  365 * y + (y + 3) / 4 - (y + 99) / 100 + (y + 399) / 400

/-- Absolute time in seconds (fixed epoch); Go's internal instant up to the
epoch shift, which `Before`/`After`/`Sub` are insensitive to. -/
def absSec (t : DateTime) : ℤ := (D t.year + t.yd) * 86400 + t.tod

/-- `int(yearStart.Weekday())`: day-of-week of January 1st (Sunday = 0),
anchored at 1970-01-01 being a Thursday. -/
def jan1Weekday (y : ℤ) : ℤ := (D y - D 1970 + 4) % 7

/-- `daysIntoWeek` from `src/nocturnal.go`: the Go switch maps each of the
seven named weekdays to its index and everything else to 1 (Monday). -/
def daysIntoWeek (d : ℤ) : ℤ := if 0 ≤ d ∧ d ≤ 6 then d else 1

/-- The finite decide-friendly facts about the month table. -/
theorem monthDay_yearDay_leftinv : ∀ (leap : Bool), ∀ n < daysInYearB leap,
    yearDayOf leap (monthDayFromYearDay leap n).1 (monthDayFromYearDay leap n).2 = n := by
  decide

theorem monthDay_bounds : ∀ (leap : Bool), ∀ n < daysInYearB leap,
    1 ≤ (monthDayFromYearDay leap n).1 ∧ (monthDayFromYearDay leap n).1 ≤ 12 ∧
      1 ≤ (monthDayFromYearDay leap n).2 ∧
      (monthDayFromYearDay leap n).2 ≤ monthLen leap (monthDayFromYearDay leap n).1 := by
  decide

theorem yearDay_monthDay_rightinv_aux : ∀ (leap : Bool), ∀ mo < 13, ∀ d < 32,
    (if 1 ≤ mo ∧ 1 ≤ d ∧ d ≤ monthLen leap mo then
      monthDayFromYearDay leap (yearDayOf leap mo d) = (mo, d) else True) := by
  decide

theorem monthLen_le_31 : ∀ (leap : Bool), ∀ mo < 13, monthLen leap mo ≤ 31 := by
  decide

theorem yearDay_monthDay_rightinv (leap : Bool) (mo d : ℕ)
    (h1 : 1 ≤ mo) (h2 : mo ≤ 12) (h3 : 1 ≤ d) (h4 : d ≤ monthLen leap mo) :
    monthDayFromYearDay leap (yearDayOf leap mo d) = (mo, d) := by
  have := yearDay_monthDay_rightinv_aux leap mo (by omega) d
    (by have := monthLen_le_31 leap mo (by omega); omega)
  rw [if_pos ⟨h1, h3, h4⟩] at this
  exact this

theorem yearDay_lt_aux : ∀ (leap : Bool), ∀ mo < 13, ∀ d < 32,
    (if 1 ≤ mo ∧ 1 ≤ d ∧ d ≤ monthLen leap mo then
      yearDayOf leap mo d < daysInYearB leap else True) := by
  decide

theorem yearDay_lt (leap : Bool) (mo d : ℕ)
    (h1 : 1 ≤ mo) (h2 : mo ≤ 12) (h3 : 1 ≤ d) (h4 : d ≤ monthLen leap mo) :
    yearDayOf leap mo d < daysInYearB leap := by
  have := yearDay_lt_aux leap mo (by omega) d
    (by have := monthLen_le_31 leap mo (by omega); omega)
  rw [if_pos ⟨h1, h3, h4⟩] at this
  exact this

theorem monthLen_pos : ∀ (leap : Bool), ∀ mo, 1 ≤ mo → mo ≤ 12 →
    1 ≤ monthLen leap mo := by
  intro leap mo h1 h2
  interval_cases mo <;> revert leap <;> decide

theorem cumBefore_mono : ∀ (leap : Bool), ∀ a b, a ≤ b → b ≤ 13 →
    cumBefore leap a ≤ cumBefore leap b := by
  intro leap a b hab hb
  induction b with
  | zero =>
      have ha : a = 0 := by omega
      simp [ha]
  | succ n ih =>
      rcases Nat.lt_or_ge a (n + 1) with h | h
      · calc cumBefore leap a ≤ cumBefore leap n := ih (by omega) (by omega)
          _ ≤ cumBefore leap n + monthLen leap n := by omega
          _ = cumBefore leap (n + 1) := rfl
      · have ha : a = n + 1 := by omega
        rw [ha]

theorem daysInYear_pos (y : ℤ) : 0 < daysInYear y := by
  unfold daysInYear daysInYearB
  split <;> omega

theorem daysInYear_le (y : ℤ) : daysInYear y ≤ 366 := by
  unfold daysInYear daysInYearB
  split <;> omega

theorem isLeap_iff (y : ℤ) :
    isLeap y = true ↔ y % 4 = 0 ∧ (y % 100 ≠ 0 ∨ y % 400 = 0) := by
  simp [isLeap]

theorem daysInYear_cast (y : ℤ) :
    (daysInYear y : ℤ) = if isLeap y = true then 366 else 365 := by
  unfold daysInYear daysInYearB
  split <;> simp_all

/-- The key recurrence: `D` advances by exactly the length of the year. -/
theorem D_gap (y : ℤ) : D (y + 1) = D y + (daysInYear y : ℤ) := by
  rw [daysInYear_cast]
  by_cases hL : isLeap y = true
  · rw [if_pos hL]
    rw [isLeap_iff] at hL
    obtain ⟨h4, hrest⟩ := hL
    unfold D
    rcases hrest with h100 | h400 <;> omega
  · rw [if_neg hL]
    rw [Bool.not_eq_true] at hL
    have hL' : ¬ (y % 4 = 0 ∧ (y % 100 ≠ 0 ∨ y % 400 = 0)) := by
      rw [← isLeap_iff, hL]; simp
    push_neg at hL'
    unfold D
    by_cases h4 : y % 4 = 0
    · obtain ⟨h100, h400⟩ := hL' h4
      omega
    · omega

theorem D_mono_step (y : ℤ) : D y < D (y + 1) := by
  have := D_gap y
  have := daysInYear_pos y
  omega

theorem D_mono (y y' : ℤ) (h : y ≤ y') : D y ≤ D y' := by
  have key : ∀ n : ℕ, D y ≤ D (y + n) := by
    intro n
    induction n with
    | zero => simp
    | succ k ih =>
        have heq : (y + ((k + 1 : ℕ) : ℤ)) = (y + (k : ℕ)) + 1 := by
          push_cast; ring
        rw [heq]
        have hstep := D_mono_step (y + (k : ℕ))
        omega
  obtain ⟨n, rfl⟩ : ∃ n : ℕ, y' = y + n := ⟨(y' - y).toNat, by omega⟩
  exact key n

theorem D_mono_gap (y y' : ℤ) (h : y < y') : D y + (daysInYear y : ℤ) ≤ D y' := by
  have h1 : y + 1 ≤ y' := by omega
  have := D_mono (y + 1) y' h1
  have := D_gap y
  omega

/-- Normalise an out-of-range day-of-year by walking forward whole years
(the civil effect of Go's `time.Date`/`AddDate` day normalisation). -/
def addDaysInYears (y : ℤ) (x : ℕ) : ℤ × ℕ :=
  if h : x < daysInYear y then (y, x)
  else addDaysInYears (y + 1) (x - daysInYear y)
  termination_by x
  decreasing_by
    have := daysInYear_pos y
    omega

theorem addDaysInYears_of_lt (y : ℤ) (x : ℕ) (h : x < daysInYear y) :
    addDaysInYears y x = (y, x) := by
  rw [addDaysInYears]
  simp [h]

theorem addDaysInYears_spec : ∀ (x : ℕ) (y : ℤ),
    D (addDaysInYears y x).1 + ((addDaysInYears y x).2 : ℤ) = D y + x ∧
    (addDaysInYears y x).2 < daysInYear (addDaysInYears y x).1 ∧
    y ≤ (addDaysInYears y x).1 := by
  intro x
  induction x using Nat.strong_induction_on with
  | _ x ih =>
      intro y
      by_cases h : x < daysInYear y
      · rw [addDaysInYears_of_lt y x h]
        exact ⟨rfl, h, le_refl y⟩
      · rw [addDaysInYears]
        rw [dif_neg h]
        have hpos := daysInYear_pos y
        have hlt : x - daysInYear y < x := by omega
        obtain ⟨h1, h2, h3⟩ := ih (x - daysInYear y) hlt (y + 1)
        refine ⟨?_, h2, by omega⟩
        rw [h1, D_gap y]
        push_cast
        omega

/-- `AddDate(0, 0, n)` in a fixed-offset zone: add `n` civil days. -/
def addDays (t : DateTime) (n : ℕ) : DateTime :=
  ⟨(addDaysInYears t.year (t.yd + n)).1, (addDaysInYears t.year (t.yd + n)).2,
    t.tod⟩

/-- `t.Add(n * time.Second)` in a fixed-offset zone. -/
def addSeconds (t : DateTime) (n : ℕ) : DateTime :=
  ⟨(addDaysInYears t.year (t.yd + (t.tod + n) / 86400)).1,
    (addDaysInYears t.year (t.yd + (t.tod + n) / 86400)).2,
    (t.tod + n) % 86400⟩

/-- `addMonths` from `src/nocturnal.go`: step the (year, month) total, clamp
the day of month to the target month's length, keep the clock fields. -/
def addMonths (t : DateTime) (months : ℕ) : DateTime :=
  let total : ℤ := t.year * 12 + ((tMonth t : ℤ) - 1) + months
  let newYear : ℤ := Int.tdiv total 12
  let newMonth : ℕ := (Int.tmod total 12).toNat + 1
  let maxDay := monthLen (isLeap newYear) newMonth
  let day := min (tDay t) maxDay
  goDate newYear newMonth day (tHour t) (tMinute t) (tSecond t)

/-- `addYears` from `src/nocturnal.go`. -/
def addYears (t : DateTime) (years : ℕ) : DateTime :=
  let newYear : ℤ := t.year + years
  let maxDay := monthLen (isLeap newYear) (tMonth t)
  let day := min (tDay t) maxDay
  goDate newYear (tMonth t) day (tHour t) (tMinute t) (tSecond t)

/-- `Nocturnal.Add` from `src/nocturnal.go` (instant already in the zone). -/
def goAdd (t : DateTime) (offset : ℕ) (u : Unit') : DateTime :=
  if offset = 0 then t
  else match u with
  | .second => addSeconds t offset
  | .minute => addSeconds t (offset * 60)
  | .hour => addSeconds t (offset * 3600)
  | .day => addDays t offset
  | .week => addDays t (offset * 7)
  | .month => addMonths t offset
  | .quarter => addMonths t (offset * 3)
  | .year => addYears t offset

theorem absSec_addDays (t : DateTime) (n : ℕ) :
    absSec (addDays t n) = absSec t + n * 86400 ∧
      (addDays t n).tod = t.tod ∧ t.year ≤ (addDays t n).year ∧
      (addDays t n).yd < daysInYear (addDays t n).year := by
  obtain ⟨h1, h2, h3⟩ := addDaysInYears_spec (t.yd + n) t.year
  refine ⟨?_, rfl, h3, h2⟩
  show (D (addDaysInYears t.year (t.yd + n)).1 +
      ((addDaysInYears t.year (t.yd + n)).2 : ℤ)) * 86400 + (t.tod : ℤ) =
    (D t.year + (t.yd : ℤ)) * 86400 + (t.tod : ℤ) + (n : ℤ) * 86400
  push_cast at h1 ⊢
  omega

theorem absSec_addSeconds (t : DateTime) (n : ℕ) (hv : ValidDT t) :
    absSec (addSeconds t n) = absSec t + n ∧
      ValidDT (addSeconds t n) ∧ t.year ≤ (addSeconds t n).year := by
  obtain ⟨h1, h2, h3⟩ := addDaysInYears_spec (t.yd + (t.tod + n) / 86400) t.year
  have hdm : 86400 * ((t.tod + n) / 86400) + (t.tod + n) % 86400 = t.tod + n :=
    Nat.div_add_mod (t.tod + n) 86400
  refine ⟨?_, ⟨h2, by show (t.tod + n) % 86400 < 86400; omega⟩, h3⟩
  show (D (addDaysInYears t.year (t.yd + (t.tod + n) / 86400)).1 +
      ((addDaysInYears t.year (t.yd + (t.tod + n) / 86400)).2 : ℤ)) * 86400 +
      (((t.tod + n) % 86400 : ℕ) : ℤ) =
    (D t.year + (t.yd : ℤ)) * 86400 + (t.tod : ℤ) + (n : ℤ)
  have hdm' : (86400 : ℤ) * (((t.tod + n) / 86400 : ℕ) : ℤ) +
      (((t.tod + n) % 86400 : ℕ) : ℤ) = (t.tod : ℤ) + n := by
    exact_mod_cast congrArg (Nat.cast : ℕ → ℤ) hdm
  push_cast at h1 hdm' ⊢
  omega

@[simp] theorem goDate_year (y : ℤ) (mo d h mi s : ℕ) :
    (goDate y mo d h mi s).year = y := rfl

theorem tMonth_goDate (y : ℤ) (mo d h mi s : ℕ)
    (h1 : 1 ≤ mo) (h2 : mo ≤ 12) (h3 : 1 ≤ d)
    (h4 : d ≤ monthLen (isLeap y) mo) :
    tMonth (goDate y mo d h mi s) = mo := by
  unfold tMonth goDate
  rw [show (DateTime.mk y (yearDayOf (isLeap y) mo d) (h * 3600 + mi * 60 + s)).yd =
      yearDayOf (isLeap y) mo d from rfl,
    yearDay_monthDay_rightinv (isLeap y) mo d h1 h2 h3 h4]

theorem tDay_goDate (y : ℤ) (mo d h mi s : ℕ)
    (h1 : 1 ≤ mo) (h2 : mo ≤ 12) (h3 : 1 ≤ d)
    (h4 : d ≤ monthLen (isLeap y) mo) :
    tDay (goDate y mo d h mi s) = d := by
  unfold tDay goDate
  rw [show (DateTime.mk y (yearDayOf (isLeap y) mo d) (h * 3600 + mi * 60 + s)).yd =
      yearDayOf (isLeap y) mo d from rfl,
    yearDay_monthDay_rightinv (isLeap y) mo d h1 h2 h3 h4]

theorem tHour_goDate (y : ℤ) (mo d h mi s : ℕ) (hmi : mi < 60) (hs : s < 60) :
    tHour (goDate y mo d h mi s) = h := by
  show (h * 3600 + mi * 60 + s) / 3600 = h
  omega

theorem tMinute_goDate (y : ℤ) (mo d h mi s : ℕ) (hmi : mi < 60) (hs : s < 60) :
    tMinute (goDate y mo d h mi s) = mi := by
  show (h * 3600 + mi * 60 + s) % 3600 / 60 = mi
  omega

theorem tSecond_goDate (y : ℤ) (mo d h mi s : ℕ) (hs : s < 60) :
    tSecond (goDate y mo d h mi s) = s := by
  show (h * 3600 + mi * 60 + s) % 60 = s
  omega

/-- The clock accessors recompose to the stored seconds-into-day. -/
theorem tod_decomp (t : DateTime) :
    tHour t * 3600 + tMinute t * 60 + tSecond t = t.tod := by
  unfold tHour tMinute tSecond
  omega

theorem tMinute_lt (t : DateTime) : tMinute t < 60 := by
  unfold tMinute; omega

theorem tSecond_lt (t : DateTime) : tSecond t < 60 := by
  unfold tSecond; omega

theorem tHour_lt (t : DateTime) (hv : ValidDT t) : tHour t < 24 := by
  obtain ⟨_, h2⟩ := hv
  unfold tHour
  omega

/-- Month/day bounds and the left inverse on a valid instant. -/
theorem monthDay_of_valid (t : DateTime) (hv : ValidDT t) :
    1 ≤ tMonth t ∧ tMonth t ≤ 12 ∧ 1 ≤ tDay t ∧
      tDay t ≤ monthLen (isLeap t.year) (tMonth t) ∧
      yearDayOf (isLeap t.year) (tMonth t) (tDay t) = t.yd := by
  obtain ⟨h1, _⟩ := hv
  have hb := monthDay_bounds (isLeap t.year) t.yd h1
  have hl := monthDay_yearDay_leftinv (isLeap t.year) t.yd h1
  exact ⟨hb.1, hb.2.1, hb.2.2.1, hb.2.2.2, hl⟩

/-- `absSec` of `goDate` with in-range fields. -/
theorem absSec_goDate (y : ℤ) (mo d h mi s : ℕ) :
    absSec (goDate y mo d h mi s) =
      (D y + (yearDayOf (isLeap y) mo d : ℤ)) * 86400 +
        ((h * 3600 + mi * 60 + s : ℕ) : ℤ) := rfl

theorem addMonths_increase (t : DateTime) (months : ℕ) (hv : ValidDT t)
    (hy : 0 ≤ t.year) (hm : 1 ≤ months) :
    absSec t < absSec (addMonths t months) ∧ ValidDT (addMonths t months) ∧
      0 ≤ (addMonths t months).year := by
  obtain ⟨hmo1, hmo2, hd1, hd2, hyd⟩ := monthDay_of_valid t hv
  have htot_nonneg : (0 : ℤ) ≤ t.year * 12 + ((tMonth t : ℤ) - 1) + months := by
    have : (1 : ℤ) ≤ (tMonth t : ℤ) := by exact_mod_cast hmo1
    nlinarith
  have htdiv : (t.year * 12 + ((tMonth t : ℤ) - 1) + months).tdiv 12 =
      (t.year * 12 + ((tMonth t : ℤ) - 1) + months) / 12 :=
    Int.tdiv_eq_ediv htot_nonneg (by norm_num)
  have htmod : (t.year * 12 + ((tMonth t : ℤ) - 1) + months).tmod 12 =
      (t.year * 12 + ((tMonth t : ℤ) - 1) + months) % 12 :=
    Int.tmod_eq_emod htot_nonneg (by norm_num)
  have hshow : addMonths t months =
      goDate ((t.year * 12 + ((tMonth t : ℤ) - 1) + months).tdiv 12)
        (((t.year * 12 + ((tMonth t : ℤ) - 1) + months).tmod 12).toNat + 1)
        (min (tDay t)
          (monthLen (isLeap ((t.year * 12 + ((tMonth t : ℤ) - 1) + months).tdiv 12))
            (((t.year * 12 + ((tMonth t : ℤ) - 1) + months).tmod 12).toNat + 1)))
        (tHour t) (tMinute t) (tSecond t) := rfl
  rw [hshow, htdiv, htmod]
  generalize hT : t.year * 12 + ((tMonth t : ℤ) - 1) + months = T at htot_nonneg ⊢
  have hny_nonneg : (0 : ℤ) ≤ T / 12 := by positivity
  have hmod_lo : (0 : ℤ) ≤ T % 12 := Int.emod_nonneg T (by norm_num)
  have hmod_hi : T % 12 < 12 := Int.emod_lt_of_pos T (by norm_num)
  have hdm : 12 * (T / 12) + T % 12 = T := Int.ediv_add_emod T 12
  have hnm1 : 1 ≤ (T % 12).toNat + 1 := by omega
  have hnm2 : (T % 12).toNat + 1 ≤ 12 := by omega
  have hday1 : 1 ≤ min (tDay t) (monthLen (isLeap (T / 12)) ((T % 12).toNat + 1)) := by
    have := monthLen_pos (isLeap (T / 12)) ((T % 12).toNat + 1) hnm1 hnm2
    omega
  have hday2 : min (tDay t) (monthLen (isLeap (T / 12)) ((T % 12).toNat + 1)) ≤
      monthLen (isLeap (T / 12)) ((T % 12).toNat + 1) := by omega
  have hyd' := yearDay_lt (isLeap (T / 12)) ((T % 12).toNat + 1) _ hnm1 hnm2 hday1 hday2
  have htod : tHour t * 3600 + tMinute t * 60 + tSecond t = t.tod := tod_decomp t
  have htodZ : ((tHour t * 3600 + tMinute t * 60 + tSecond t : ℕ) : ℤ) = (t.tod : ℤ) := by
    exact_mod_cast congrArg (Nat.cast : ℕ → ℤ) htod
  have hcase : t.year < T / 12 ∨ (T / 12 = t.year ∧ tMonth t < (T % 12).toNat + 1) := by
    omega
  refine ⟨?_, ⟨?_, ?_⟩, hny_nonneg⟩
  · rw [absSec_goDate, htodZ]
    show (D t.year + (t.yd : ℤ)) * 86400 + (t.tod : ℤ) < _
    have hkey : D t.year + (t.yd : ℤ) <
        D (T / 12) + (yearDayOf (isLeap (T / 12)) ((T % 12).toNat + 1)
          (min (tDay t) (monthLen (isLeap (T / 12)) ((T % 12).toNat + 1))) : ℤ) := by
      rcases hcase with hlt | ⟨heq, hmlt⟩
      · have hgap := D_mono_gap t.year (T / 12) hlt
        have hydlt : (t.yd : ℤ) < daysInYear t.year := by exact_mod_cast hv.1
        have hpos : (0 : ℤ) ≤ yearDayOf (isLeap (T / 12)) ((T % 12).toNat + 1)
            (min (tDay t) (monthLen (isLeap (T / 12)) ((T % 12).toNat + 1))) := by
          positivity
        omega
      · rw [heq] at hyd' hday1 hday2 ⊢
        have hcum : cumBefore (isLeap t.year) (tMonth t + 1) ≤
            cumBefore (isLeap t.year) ((T % 12).toNat + 1) :=
          cumBefore_mono (isLeap t.year) (tMonth t + 1) ((T % 12).toNat + 1)
            (by omega) (by omega)
        have hcumstep : cumBefore (isLeap t.year) (tMonth t + 1) =
            cumBefore (isLeap t.year) (tMonth t) + monthLen (isLeap t.year) (tMonth t) :=
          rfl
        have hnat : t.yd < yearDayOf (isLeap t.year) ((T % 12).toNat + 1)
            (min (tDay t) (monthLen (isLeap t.year) ((T % 12).toNat + 1))) := by
          rw [← hyd]
          unfold yearDayOf
          omega
        have := (Int.ofNat_lt).mpr hnat
        omega
    omega
  · show yearDayOf _ _ _ < daysInYear (T / 12)
    exact hyd'
  · show tHour t * 3600 + tMinute t * 60 + tSecond t < 86400
    rw [htod]
    exact hv.2

theorem addYears_increase (t : DateTime) (years : ℕ) (hv : ValidDT t)
    (hy : 1 ≤ years) :
    absSec t < absSec (addYears t years) ∧ ValidDT (addYears t years) ∧
      t.year < (addYears t years).year := by
  obtain ⟨hmo1, hmo2, hd1, hd2, hyd⟩ := monthDay_of_valid t hv
  set newYear : ℤ := t.year + years with hny_def
  have hlt : t.year < newYear := by rw [hny_def]; push_cast; omega
  set leap' := isLeap newYear with hleap'
  set day := min (tDay t) (monthLen leap' (tMonth t)) with hday_def
  have hday1 : 1 ≤ day := by
    rw [hday_def]
    have := monthLen_pos leap' (tMonth t) hmo1 hmo2
    omega
  have hday2 : day ≤ monthLen leap' (tMonth t) := by rw [hday_def]; omega
  have hyd' : yearDayOf leap' (tMonth t) day < daysInYearB leap' :=
    yearDay_lt leap' (tMonth t) day hmo1 hmo2 hday1 hday2
  have htod : tHour t * 3600 + tMinute t * 60 + tSecond t = t.tod := tod_decomp t
  have habs : absSec (addYears t years) =
      (D newYear + (yearDayOf leap' (tMonth t) day : ℤ)) * 86400 + (t.tod : ℤ) := by
    show absSec (goDate newYear (tMonth t) day (tHour t) (tMinute t) (tSecond t)) = _
    rw [absSec_goDate]
    try congr 2
    try exact_mod_cast congrArg (Nat.cast : ℕ → ℤ) htod
  refine ⟨?_, ⟨?_, ?_⟩, hlt⟩
  · rw [habs]
    unfold absSec
    have hgap := D_mono_gap t.year newYear hlt
    have hydlt : (t.yd : ℤ) < daysInYear t.year := by exact_mod_cast hv.1
    have : (0 : ℤ) ≤ yearDayOf leap' (tMonth t) day := by positivity
    omega
  · show yearDayOf leap' (tMonth t) day < daysInYear newYear
    exact hyd'
  · show tHour t * 3600 + tMinute t * 60 + tSecond t < 86400
    rw [htod]
    exact hv.2

/-- One `Add` step with a positive offset strictly advances absolute time and
preserves validity and year nonnegativity. -/
theorem goAdd_increase (t : DateTime) (offset : ℕ) (u : Unit') (hv : ValidDT t)
    (hy : 0 ≤ t.year) (ho : 1 ≤ offset) :
    absSec t < absSec (goAdd t offset u) ∧ ValidDT (goAdd t offset u) ∧
      0 ≤ (goAdd t offset u).year := by
  have hoff : ¬ offset = 0 := by omega
  unfold goAdd
  rw [if_neg hoff]
  cases u with
  | second =>
      show absSec t < absSec (addSeconds t offset) ∧
        ValidDT (addSeconds t offset) ∧ 0 ≤ (addSeconds t offset).year
      obtain ⟨h1, h2, h3⟩ := absSec_addSeconds t offset hv
      exact ⟨by omega, h2, by omega⟩
  | minute =>
      show absSec t < absSec (addSeconds t (offset * 60)) ∧
        ValidDT (addSeconds t (offset * 60)) ∧ 0 ≤ (addSeconds t (offset * 60)).year
      obtain ⟨h1, h2, h3⟩ := absSec_addSeconds t (offset * 60) hv
      have : 1 ≤ offset * 60 := by omega
      exact ⟨by omega, h2, by omega⟩
  | hour =>
      show absSec t < absSec (addSeconds t (offset * 3600)) ∧
        ValidDT (addSeconds t (offset * 3600)) ∧ 0 ≤ (addSeconds t (offset * 3600)).year
      obtain ⟨h1, h2, h3⟩ := absSec_addSeconds t (offset * 3600) hv
      have : 1 ≤ offset * 3600 := by omega
      exact ⟨by omega, h2, by omega⟩
  | day =>
      show absSec t < absSec (addDays t offset) ∧
        ValidDT (addDays t offset) ∧ 0 ≤ (addDays t offset).year
      obtain ⟨h1, h2, h3, h4⟩ := absSec_addDays t offset
      exact ⟨by omega, ⟨h4, by rw [h2]; exact hv.2⟩, by omega⟩
  | week =>
      show absSec t < absSec (addDays t (offset * 7)) ∧
        ValidDT (addDays t (offset * 7)) ∧ 0 ≤ (addDays t (offset * 7)).year
      obtain ⟨h1, h2, h3, h4⟩ := absSec_addDays t (offset * 7)
      have : 1 ≤ offset * 7 := by omega
      exact ⟨by omega, ⟨h4, by rw [h2]; exact hv.2⟩, by omega⟩
  | month =>
      show absSec t < absSec (addMonths t offset) ∧
        ValidDT (addMonths t offset) ∧ 0 ≤ (addMonths t offset).year
      exact addMonths_increase t offset hv hy ho
  | quarter =>
      show absSec t < absSec (addMonths t (offset * 3)) ∧
        ValidDT (addMonths t (offset * 3)) ∧ 0 ≤ (addMonths t (offset * 3)).year
      exact addMonths_increase t (offset * 3) hv hy (by omega)
  | year =>
      show absSec t < absSec (addYears t offset) ∧
        ValidDT (addYears t offset) ∧ 0 ≤ (addYears t offset).year
      obtain ⟨h1, h2, h3⟩ := addYears_increase t offset hv ho
      exact ⟨h1, h2, by omega⟩

/-- `Nocturnal.Floor` from `src/nocturnal.go` (instant already in the zone),
parameterised by the configured beginning-of-week. -/
def goFloor (bw : ℤ) (t : DateTime) (offset : ℕ) (u : Unit') : DateTime :=
  match u with
  | .second =>
      goDate t.year (tMonth t) (tDay t) (tHour t) (tMinute t)
        (tSecond t / offset * offset)
  | .minute =>
      goDate t.year (tMonth t) (tDay t) (tHour t)
        (tMinute t / offset * offset) 0
  | .hour =>
      goDate t.year (tMonth t) (tDay t) (tHour t / offset * offset) 0 0
  | .day =>
      addDays (goDate t.year 1 1 0 0 0) ((tYearDay t - 1) / offset * offset)
  | .week =>
      let yearStart := goDate t.year 1 1 0 0 0
      let daysToFirst := ((daysIntoWeek bw - jan1Weekday t.year) % 7).toNat
      let firstWeekStart := addDays yearStart daysToFirst
      if absSec t < absSec firstWeekStart then yearStart
      else
        let weeksSinceFirst := ((absSec t - absSec firstWeekStart) / 604800).toNat
        addDays firstWeekStart (weeksSinceFirst / offset * offset * 7)
  | .month =>
      goDate t.year ((tMonth t - 1) / offset * offset + 1) 1 0 0 0
  | .quarter =>
      goDate t.year ((tMonth t - 1) / 3 / offset * offset * 3 + 1) 1 0 0 0
  | .year =>
      goDate (Int.tdiv t.year offset * offset) 1 1 0 0 0

theorem goDate_jan1 (y : ℤ) : goDate y 1 1 0 0 0 = ⟨y, 0, 0⟩ := rfl

theorem addDays_mk_lt (y : ℤ) (yd tod n : ℕ) (h : yd + n < daysInYear y) :
    addDays ⟨y, yd, tod⟩ n = ⟨y, yd + n, tod⟩ := by
  unfold addDays
  rw [show (DateTime.mk y yd tod).year = y from rfl,
    show (DateTime.mk y yd tod).yd = yd from rfl,
    addDaysInYears_of_lt y (yd + n) h]

theorem addDays_zero_year (y : ℤ) (n : ℕ) (h : n < daysInYear y) :
    addDays ⟨y, 0, 0⟩ n = ⟨y, n, 0⟩ := by
  have := addDays_mk_lt y 0 0 n (by omega)
  simpa using this

theorem absSec_mk (y : ℤ) (yd tod : ℕ) :
    absSec ⟨y, yd, tod⟩ = (D y + (yd : ℤ)) * 86400 + (tod : ℤ) := rfl

/-- **C7.**  `Floor` is idempotent: for every valid instant, every offset
`≥ 1` and every unit, under any beginning-of-week policy,
`Floor(Floor(t, o, u), o, u) = Floor(t, o, u)`. -/
theorem goFloor_idem (bw : ℤ) (t : DateTime) (offset : ℕ) (u : Unit')
    (hv : ValidDT t) (ho : 1 ≤ offset) :
    goFloor bw (goFloor bw t offset u) offset u = goFloor bw t offset u := by
  have ho' : 0 < offset := ho
  obtain ⟨hmo1, hmo2, hd1, hd2, hyd⟩ := monthDay_of_valid t hv
  have hmi_lt := tMinute_lt t
  have hs_lt := tSecond_lt t
  have hh_lt := tHour_lt t hv
  cases u with
  | second =>
      show goDate (goFloor bw t offset .second).year
          (tMonth (goFloor bw t offset .second)) (tDay (goFloor bw t offset .second))
          (tHour (goFloor bw t offset .second)) (tMinute (goFloor bw t offset .second))
          (tSecond (goFloor bw t offset .second) / offset * offset) =
        goFloor bw t offset .second
      have hfl : goFloor bw t offset .second =
          goDate t.year (tMonth t) (tDay t) (tHour t) (tMinute t)
            (tSecond t / offset * offset) := rfl
      rw [hfl]
      have hs' : tSecond t / offset * offset < 60 := by
        have := Nat.div_mul_le_self (tSecond t) offset
        omega
      rw [goDate_year, tMonth_goDate _ _ _ _ _ _ hmo1 hmo2 hd1 hd2,
        tDay_goDate _ _ _ _ _ _ hmo1 hmo2 hd1 hd2,
        tHour_goDate _ _ _ _ _ _ hmi_lt hs',
        tMinute_goDate _ _ _ _ _ _ hmi_lt hs',
        tSecond_goDate _ _ _ _ _ _ hs',
        Nat.mul_div_cancel _ ho']
  | minute =>
      show goDate (goFloor bw t offset .minute).year
          (tMonth (goFloor bw t offset .minute)) (tDay (goFloor bw t offset .minute))
          (tHour (goFloor bw t offset .minute))
          (tMinute (goFloor bw t offset .minute) / offset * offset) 0 =
        goFloor bw t offset .minute
      have hfl : goFloor bw t offset .minute =
          goDate t.year (tMonth t) (tDay t) (tHour t)
            (tMinute t / offset * offset) 0 := rfl
      rw [hfl]
      have hmi' : tMinute t / offset * offset < 60 := by
        have := Nat.div_mul_le_self (tMinute t) offset
        omega
      rw [goDate_year, tMonth_goDate _ _ _ _ _ _ hmo1 hmo2 hd1 hd2,
        tDay_goDate _ _ _ _ _ _ hmo1 hmo2 hd1 hd2,
        tHour_goDate _ _ _ _ _ _ hmi' (by omega),
        tMinute_goDate _ _ _ _ _ _ hmi' (by omega),
        Nat.mul_div_cancel _ ho']
  | hour =>
      show goDate (goFloor bw t offset .hour).year
          (tMonth (goFloor bw t offset .hour)) (tDay (goFloor bw t offset .hour))
          (tHour (goFloor bw t offset .hour) / offset * offset) 0 0 =
        goFloor bw t offset .hour
      have hfl : goFloor bw t offset .hour =
          goDate t.year (tMonth t) (tDay t) (tHour t / offset * offset) 0 0 := rfl
      rw [hfl]
      rw [goDate_year, tMonth_goDate _ _ _ _ _ _ hmo1 hmo2 hd1 hd2,
        tDay_goDate _ _ _ _ _ _ hmo1 hmo2 hd1 hd2,
        tHour_goDate _ _ _ _ _ _ (by omega) (by omega),
        Nat.mul_div_cancel _ ho']
  | day =>
      have hyd1 : tYearDay t - 1 = t.yd := by
        show t.yd + 1 - 1 = t.yd
        omega
      have hfl_lt : t.yd / offset * offset < daysInYear t.year := by
        have := Nat.div_mul_le_self t.yd offset
        have := hv.1
        omega
      have hval : goFloor bw t offset .day =
          ⟨t.year, t.yd / offset * offset, 0⟩ := by
        show addDays (goDate t.year 1 1 0 0 0) ((tYearDay t - 1) / offset * offset) = _
        rw [hyd1, goDate_jan1, addDays_zero_year _ _ hfl_lt]
      show addDays (goDate (goFloor bw t offset .day).year 1 1 0 0 0)
          ((tYearDay (goFloor bw t offset .day) - 1) / offset * offset) =
        goFloor bw t offset .day
      rw [hval]
      have hyd2 : tYearDay (⟨t.year, t.yd / offset * offset, 0⟩ : DateTime) - 1 =
          t.yd / offset * offset := by
        show t.yd / offset * offset + 1 - 1 = t.yd / offset * offset
        omega
      rw [show (DateTime.mk t.year (t.yd / offset * offset) 0).year = t.year from rfl,
        hyd2, goDate_jan1, Nat.mul_div_cancel _ ho',
        addDays_zero_year _ _ hfl_lt]
  | month =>
      have hfl_le : (tMonth t - 1) / offset * offset ≤ 11 := by
        have := Nat.div_mul_le_self (tMonth t - 1) offset
        omega
      have hb1 : 1 ≤ (tMonth t - 1) / offset * offset + 1 := by omega
      have hb2 : (tMonth t - 1) / offset * offset + 1 ≤ 12 := by omega
      have hb4 : 1 ≤ monthLen (isLeap t.year) ((tMonth t - 1) / offset * offset + 1) :=
        monthLen_pos _ _ hb1 hb2
      show goDate (goFloor bw t offset .month).year
          ((tMonth (goFloor bw t offset .month) - 1) / offset * offset + 1) 1 0 0 0 =
        goFloor bw t offset .month
      have hfl : goFloor bw t offset .month =
          goDate t.year ((tMonth t - 1) / offset * offset + 1) 1 0 0 0 := rfl
      rw [hfl, goDate_year, tMonth_goDate _ _ _ _ _ _ hb1 hb2 (by omega) hb4]
      rw [show (tMonth t - 1) / offset * offset + 1 - 1 =
        (tMonth t - 1) / offset * offset from by omega,
        Nat.mul_div_cancel _ ho']
  | quarter =>
      have hq_le : (tMonth t - 1) / 3 / offset * offset ≤ 3 := by
        have h1 : (tMonth t - 1) / 3 ≤ 3 := by omega
        have := Nat.div_mul_le_self ((tMonth t - 1) / 3) offset
        omega
      have hb1 : 1 ≤ (tMonth t - 1) / 3 / offset * offset * 3 + 1 := by omega
      have hb2 : (tMonth t - 1) / 3 / offset * offset * 3 + 1 ≤ 12 := by omega
      have hb4 : 1 ≤ monthLen (isLeap t.year)
          ((tMonth t - 1) / 3 / offset * offset * 3 + 1) :=
        monthLen_pos _ _ hb1 hb2
      show goDate (goFloor bw t offset .quarter).year
          ((tMonth (goFloor bw t offset .quarter) - 1) / 3 / offset * offset * 3 + 1)
          1 0 0 0 =
        goFloor bw t offset .quarter
      have hfl : goFloor bw t offset .quarter =
          goDate t.year ((tMonth t - 1) / 3 / offset * offset * 3 + 1) 1 0 0 0 := rfl
      rw [hfl, goDate_year, tMonth_goDate _ _ _ _ _ _ hb1 hb2 (by omega) hb4]
      rw [show ((tMonth t - 1) / 3 / offset * offset * 3 + 1 - 1) / 3 =
        (tMonth t - 1) / 3 / offset * offset from by omega,
        Nat.mul_div_cancel _ ho']
  | year =>
      show goDate (Int.tdiv (goFloor bw t offset .year).year offset * offset) 1 1 0 0 0 =
        goFloor bw t offset .year
      have hfl : goFloor bw t offset .year =
          goDate (Int.tdiv t.year offset * offset) 1 1 0 0 0 := rfl
      rw [hfl, goDate_year]
      rw [Int.mul_tdiv_cancel _ (by exact_mod_cast ho'.ne')]
  | week =>
      have hdtf_lt : ((daysIntoWeek bw - jan1Weekday t.year) % 7).toNat <
          daysInYear t.year := by
        have h7 : (daysIntoWeek bw - jan1Weekday t.year) % 7 < 7 :=
          Int.emod_lt_of_pos _ (by norm_num)
        have h365 : 365 ≤ daysInYear t.year := by
          unfold daysInYear daysInYearB; split <;> omega
        omega
      set dtf : ℕ := ((daysIntoWeek bw - jan1Weekday t.year) % 7).toNat with hdtf_def
      have hfws : addDays (⟨t.year, 0, 0⟩ : DateTime) dtf =
          ⟨t.year, dtf, 0⟩ :=
        addDays_zero_year _ _ hdtf_lt
      have hflgen : ∀ s : DateTime, s.year = t.year → goFloor bw s offset .week =
          if absSec s < absSec (⟨t.year, dtf, 0⟩ : DateTime) then
            (⟨t.year, 0, 0⟩ : DateTime)
          else addDays (⟨t.year, dtf, 0⟩ : DateTime)
            (((absSec s - absSec (⟨t.year, dtf, 0⟩ : DateTime)) / 604800).toNat /
              offset * offset * 7) := by
        intro s hs
        have h0 : goFloor bw s offset .week =
            if absSec s < absSec (addDays (⟨s.year, 0, 0⟩ : DateTime)
                ((daysIntoWeek bw - jan1Weekday s.year) % 7).toNat) then
              (⟨s.year, 0, 0⟩ : DateTime)
            else addDays (addDays (⟨s.year, 0, 0⟩ : DateTime)
                ((daysIntoWeek bw - jan1Weekday s.year) % 7).toNat)
              (((absSec s - absSec (addDays (⟨s.year, 0, 0⟩ : DateTime)
                  ((daysIntoWeek bw - jan1Weekday s.year) % 7).toNat)) / 604800).toNat /
                offset * offset * 7) := rfl
        rw [h0, hs, ← hdtf_def, hfws]
      have hmain := hflgen t rfl
      rw [hmain]
      by_cases hbefore : absSec t < absSec (⟨t.year, dtf, 0⟩ : DateTime)
      · rw [if_pos hbefore, hflgen (⟨t.year, 0, 0⟩ : DateTime) rfl]
        by_cases hb0 : absSec (⟨t.year, 0, 0⟩ : DateTime) <
            absSec (⟨t.year, dtf, 0⟩ : DateTime)
        · rw [if_pos hb0]
        · rw [if_neg hb0]
          have hdtf0 : dtf = 0 := by
            rw [absSec_mk, absSec_mk] at hb0
            omega
          rw [hdtf0, sub_self]
          have hz : ((0 : ℤ) / 604800).toNat / offset * offset * 7 = 0 := by
            norm_num
          rw [hz, addDays_zero_year _ _ (daysInYear_pos t.year)]
      · rw [if_neg hbefore]
        have habs_t : absSec t = (D t.year + (t.yd : ℤ)) * 86400 + (t.tod : ℤ) := rfl
        have e1 : absSec (⟨t.year, dtf, 0⟩ : DateTime) =
            (D t.year + (dtf : ℤ)) * 86400 := by
          show (D t.year + ((dtf : ℕ) : ℤ)) * 86400 + ((0 : ℕ) : ℤ) = _
          push_cast
          ring
        have htodZ : (t.tod : ℤ) < 86400 := by exact_mod_cast hv.2
        have hge : dtf ≤ t.yd := by
          have hb' := not_lt.mp hbefore
          rw [e1, habs_t] at hb'
          by_contra hcon
          push_neg at hcon
          have hc : (t.yd : ℤ) + 1 ≤ (dtf : ℤ) := by exact_mod_cast hcon
          nlinarith
        have hgeZ : (dtf : ℤ) ≤ (t.yd : ℤ) := by exact_mod_cast hge
        have hdiff_eq : absSec t - absSec (⟨t.year, dtf, 0⟩ : DateTime) =
            ((t.yd : ℤ) - dtf) * 86400 + t.tod := by
          rw [habs_t, e1]
          ring
        have hdiff_nonneg : 0 ≤ absSec t - absSec (⟨t.year, dtf, 0⟩ : DateTime) := by
          rw [hdiff_eq]
          have : (0 : ℤ) ≤ (t.tod : ℤ) := by positivity
          nlinarith
        have hwkZ : (((absSec t - absSec (⟨t.year, dtf, 0⟩ : DateTime)) / 604800).toNat : ℤ)
            = (absSec t - absSec (⟨t.year, dtf, 0⟩ : DateTime)) / 604800 := by
          have h0 : (0 : ℤ) ≤ (absSec t - absSec (⟨t.year, dtf, 0⟩ : DateTime)) / 604800 :=
            Int.ediv_nonneg hdiff_nonneg (by norm_num)
          omega
        set wk : ℕ := ((absSec t - absSec (⟨t.year, dtf, 0⟩ : DateTime)) / 604800).toNat
          with hwk_def
        have hwk7 : wk * 7 ≤ t.yd - dtf := by
          have h1 : 604800 * ((absSec t - absSec (⟨t.year, dtf, 0⟩ : DateTime)) / 604800) ≤
              absSec t - absSec (⟨t.year, dtf, 0⟩ : DateTime) := by
            omega
          have h2 : absSec t - absSec (⟨t.year, dtf, 0⟩ : DateTime) <
              ((t.yd : ℤ) - dtf + 1) * 86400 := by
            rw [hdiff_eq]
            nlinarith
          have h3 : (wk : ℤ) * 7 ≤ (t.yd : ℤ) - dtf := by
            rw [hwk_def, hwkZ]
            omega
          omega
        have hfl7_le : wk / offset * offset * 7 ≤ wk * 7 := by
          have := Nat.div_mul_le_self wk offset
          omega
        have hsum_lt : dtf + wk / offset * offset * 7 < daysInYear t.year := by
          have := hv.1
          omega
        rw [addDays_mk_lt _ _ _ _ hsum_lt,
          hflgen (⟨t.year, dtf + wk / offset * offset * 7, 0⟩ : DateTime) rfl]
        have e2 : absSec (⟨t.year, dtf + wk / offset * offset * 7, 0⟩ : DateTime) =
            (D t.year + ((dtf + wk / offset * offset * 7 : ℕ) : ℤ)) * 86400 := by
          show (D t.year + ((dtf + wk / offset * offset * 7 : ℕ) : ℤ)) * 86400 +
            ((0 : ℕ) : ℤ) = _
          push_cast
          ring
        have hnb : ¬ absSec (⟨t.year, dtf + wk / offset * offset * 7, 0⟩ : DateTime) <
            absSec (⟨t.year, dtf, 0⟩ : DateTime) := by
          rw [e2, e1]
          push_neg
          have h0 : (0 : ℤ) ≤ ((wk / offset * offset * 7 : ℕ) : ℤ) := by positivity
          push_cast at h0 ⊢
          linarith
        rw [if_neg hnb]
        have hdiff2 : absSec (⟨t.year, dtf + wk / offset * offset * 7, 0⟩ : DateTime) -
            absSec (⟨t.year, dtf, 0⟩ : DateTime) =
            ((wk / offset * offset : ℕ) : ℤ) * 604800 := by
          rw [e2, e1]
          push_cast
          ring
        rw [hdiff2, Int.mul_ediv_cancel _ (show (604800 : ℤ) ≠ 0 by norm_num)]
        have htn : (((wk / offset * offset : ℕ) : ℤ)).toNat = wk / offset * offset := by
          omega
        rw [htn, Nat.mul_div_cancel _ ho']
        exact addDays_mk_lt _ _ _ _ hsum_lt

/-- Witness for the Floor idempotence theorem: 2025-01-15T10:37:45 (day-of-year
14, 38265 seconds into the day) floored twice at a 15-minute granularity. -/
theorem goFloor_idem_witness :
    ValidDT ⟨2025, 14, 38265⟩ ∧ (1 : ℕ) ≤ 15 ∧
      goFloor 1 (goFloor 1 ⟨2025, 14, 38265⟩ 15 Unit'.minute) 15 Unit'.minute =
        goFloor 1 ⟨2025, 14, 38265⟩ 15 Unit'.minute :=
  ⟨⟨by decide, by decide⟩, by decide,
    goFloor_idem 1 ⟨2025, 14, 38265⟩ 15 Unit'.minute ⟨by decide, by decide⟩ (by decide)⟩

theorem valid_goDate (y : ℤ) (mo d h mi s : ℕ) (hmo1 : 1 ≤ mo) (hmo2 : mo ≤ 12)
    (hd1 : 1 ≤ d) (hd2 : d ≤ monthLen (isLeap y) mo)
    (hh : h < 24) (hmi : mi < 60) (hs : s < 60) :
    ValidDT (goDate y mo d h mi s) := by
  constructor
  · show yearDayOf (isLeap y) mo d < daysInYear y
    exact yearDay_lt _ _ _ hmo1 hmo2 hd1 hd2
  · show h * 3600 + mi * 60 + s < 86400
    omega

/-- `Floor` sends a valid instant with nonnegative year to a valid instant
with nonnegative year. -/
theorem goFloor_valid (bw : ℤ) (t : DateTime) (offset : ℕ) (u : Unit')
    (hv : ValidDT t) (hy : 0 ≤ t.year) (ho : 1 ≤ offset) :
    ValidDT (goFloor bw t offset u) ∧ 0 ≤ (goFloor bw t offset u).year := by
  have ho' : 0 < offset := ho
  obtain ⟨hmo1, hmo2, hd1, hd2, hyd⟩ := monthDay_of_valid t hv
  have hmi_lt := tMinute_lt t
  have hs_lt := tSecond_lt t
  have hh_lt := tHour_lt t hv
  cases u with
  | second =>
      have hfl : goFloor bw t offset .second =
          goDate t.year (tMonth t) (tDay t) (tHour t) (tMinute t)
            (tSecond t / offset * offset) := rfl
      rw [hfl]
      have hs' : tSecond t / offset * offset < 60 := by
        have := Nat.div_mul_le_self (tSecond t) offset
        omega
      exact ⟨valid_goDate _ _ _ _ _ _ hmo1 hmo2 hd1 hd2 hh_lt hmi_lt hs',
        by rw [goDate_year]; exact hy⟩
  | minute =>
      have hfl : goFloor bw t offset .minute =
          goDate t.year (tMonth t) (tDay t) (tHour t)
            (tMinute t / offset * offset) 0 := rfl
      rw [hfl]
      have hmi' : tMinute t / offset * offset < 60 := by
        have := Nat.div_mul_le_self (tMinute t) offset
        omega
      exact ⟨valid_goDate _ _ _ _ _ _ hmo1 hmo2 hd1 hd2 hh_lt hmi' (by omega),
        by rw [goDate_year]; exact hy⟩
  | hour =>
      have hfl : goFloor bw t offset .hour =
          goDate t.year (tMonth t) (tDay t) (tHour t / offset * offset) 0 0 := rfl
      rw [hfl]
      have hh' : tHour t / offset * offset < 24 := by
        have := Nat.div_mul_le_self (tHour t) offset
        omega
      exact ⟨valid_goDate _ _ _ _ _ _ hmo1 hmo2 hd1 hd2 hh' (by omega) (by omega),
        by rw [goDate_year]; exact hy⟩
  | day =>
      have hfl : goFloor bw t offset .day =
          addDays (⟨t.year, 0, 0⟩ : DateTime) ((tYearDay t - 1) / offset * offset) := by
        show addDays (goDate t.year 1 1 0 0 0) ((tYearDay t - 1) / offset * offset) = _
        rw [goDate_jan1]
      rw [hfl]
      obtain ⟨h1, h2, h3, h4⟩ :=
        absSec_addDays (⟨t.year, 0, 0⟩ : DateTime) ((tYearDay t - 1) / offset * offset)
      have h3' : t.year ≤
          (addDays (⟨t.year, 0, 0⟩ : DateTime) ((tYearDay t - 1) / offset * offset)).year :=
        h3
      refine ⟨⟨h4, ?_⟩, by omega⟩
      rw [h2]
      show (0 : ℕ) < 86400
      omega
  | week =>
      have h0 : goFloor bw t offset .week =
          if absSec t < absSec (addDays (⟨t.year, 0, 0⟩ : DateTime)
              ((daysIntoWeek bw - jan1Weekday t.year) % 7).toNat) then
            (⟨t.year, 0, 0⟩ : DateTime)
          else addDays (addDays (⟨t.year, 0, 0⟩ : DateTime)
              ((daysIntoWeek bw - jan1Weekday t.year) % 7).toNat)
            (((absSec t - absSec (addDays (⟨t.year, 0, 0⟩ : DateTime)
                ((daysIntoWeek bw - jan1Weekday t.year) % 7).toNat)) / 604800).toNat /
              offset * offset * 7) := rfl
      rw [h0]
      set dtf : ℕ := ((daysIntoWeek bw - jan1Weekday t.year) % 7).toNat with hdtf_def
      split
      · exact ⟨⟨daysInYear_pos t.year, by show (0 : ℕ) < 86400; omega⟩, hy⟩
      · obtain ⟨g1, g2, g3, g4⟩ :=
          absSec_addDays (addDays (⟨t.year, 0, 0⟩ : DateTime) dtf)
            (((absSec t - absSec (addDays (⟨t.year, 0, 0⟩ : DateTime) dtf)) /
              604800).toNat / offset * offset * 7)
        obtain ⟨f1, f2, f3, f4⟩ := absSec_addDays (⟨t.year, 0, 0⟩ : DateTime) dtf
        have f3' : t.year ≤ (addDays (⟨t.year, 0, 0⟩ : DateTime) dtf).year := f3
        refine ⟨⟨g4, ?_⟩, by omega⟩
        rw [g2, f2]
        show (0 : ℕ) < 86400
        omega
  | month =>
      have hfl_le : (tMonth t - 1) / offset * offset ≤ 11 := by
        have := Nat.div_mul_le_self (tMonth t - 1) offset
        omega
      have hb1 : 1 ≤ (tMonth t - 1) / offset * offset + 1 := by omega
      have hb2 : (tMonth t - 1) / offset * offset + 1 ≤ 12 := by omega
      have hfl : goFloor bw t offset .month =
          goDate t.year ((tMonth t - 1) / offset * offset + 1) 1 0 0 0 := rfl
      rw [hfl]
      exact ⟨valid_goDate _ _ _ _ _ _ hb1 hb2 (by omega) (monthLen_pos _ _ hb1 hb2)
        (by omega) (by omega) (by omega), by rw [goDate_year]; exact hy⟩
  | quarter =>
      have hq_le : (tMonth t - 1) / 3 / offset * offset ≤ 3 := by
        have h1 : (tMonth t - 1) / 3 ≤ 3 := by omega
        have := Nat.div_mul_le_self ((tMonth t - 1) / 3) offset
        omega
      have hb1 : 1 ≤ (tMonth t - 1) / 3 / offset * offset * 3 + 1 := by omega
      have hb2 : (tMonth t - 1) / 3 / offset * offset * 3 + 1 ≤ 12 := by omega
      have hfl : goFloor bw t offset .quarter =
          goDate t.year ((tMonth t - 1) / 3 / offset * offset * 3 + 1) 1 0 0 0 := rfl
      rw [hfl]
      exact ⟨valid_goDate _ _ _ _ _ _ hb1 hb2 (by omega) (monthLen_pos _ _ hb1 hb2)
        (by omega) (by omega) (by omega), by rw [goDate_year]; exact hy⟩
  | year =>
      have hfl : goFloor bw t offset .year =
          (⟨Int.tdiv t.year offset * offset, 0, 0⟩ : DateTime) := by
        show goDate (Int.tdiv t.year offset * offset) 1 1 0 0 0 = _
        rw [goDate_jan1]
      rw [hfl]
      refine ⟨⟨daysInYear_pos _, by show (0 : ℕ) < 86400; omega⟩, ?_⟩
      show 0 ≤ Int.tdiv t.year offset * offset
      exact mul_nonneg (Int.tdiv_nonneg hy (by positivity)) (by positivity)

/-- The loop body of `Timeline` from `src/nocturnal.go`: collect buckets while
`!t.After(end)`, stepping by `Add`.  The Go loop terminates because `Add`
strictly advances time; here the same progress argument discharges an
explicit fuel parameter. -/
def timelineLoop (offset : ℕ) (u : Unit') (e : DateTime) : ℕ → DateTime → List DateTime
  | 0, _ => []
  | fuel + 1, t =>
      if absSec t ≤ absSec e then
        t :: timelineLoop offset u e fuel (goAdd t offset u)
      else []

/-- Enough fuel for `timelineLoop`: each step advances `absSec` by at least
one second. -/
def timelineFuel (s e : DateTime) : ℕ := (absSec e - absSec s).toNat + 1

/-- `Timeline` from `src/nocturnal.go`. -/
def goTimeline (bw : ℤ) (a b : DateTime) (offset : ℕ) (u : Unit') : List DateTime :=
  timelineLoop offset u (goFloor bw b offset u)
    (timelineFuel (goFloor bw a offset u) (goFloor bw b offset u))
    (goFloor bw a offset u)

theorem timelineLoop_spec (offset : ℕ) (u : Unit') (ho : 1 ≤ offset) (e : DateTime) :
    ∀ (fuel : ℕ) (t : DateTime), ValidDT t → 0 ≤ t.year →
      absSec e < absSec t + fuel →
      (timelineLoop offset u e fuel t = [] ↔ absSec e < absSec t) ∧
      (timelineLoop offset u e fuel t ≠ [] →
        (timelineLoop offset u e fuel t).head? = some t) ∧
      List.Chain' (fun p q => goAdd p offset u = q) (timelineLoop offset u e fuel t) ∧
      List.Chain' (fun p q => absSec p < absSec q) (timelineLoop offset u e fuel t) ∧
      (∀ x ∈ timelineLoop offset u e fuel t, absSec x ≤ absSec e) ∧
      (∀ y, (timelineLoop offset u e fuel t).getLast? = some y →
        absSec e < absSec (goAdd y offset u)) := by
  intro fuel
  induction fuel with
  | zero =>
      intro t hv hy hfuel
      have hnil : timelineLoop offset u e 0 t = [] := rfl
      rw [hnil]
      refine ⟨⟨fun _ => by omega, fun _ => rfl⟩, fun h => absurd rfl h, ?_, ?_, ?_, ?_⟩
      · exact List.chain'_nil
      · exact List.chain'_nil
      · intro x hx
        exact absurd hx (List.not_mem_nil x)
      · intro y hny
        exact absurd hny (by simp)
  | succ fuel ih =>
      intro t hv hy hfuel
      by_cases hle : absSec t ≤ absSec e
      · obtain ⟨hinc, hv', hy'⟩ := goAdd_increase t offset u hv hy ho
        have hfuel' : absSec e < absSec (goAdd t offset u) + fuel := by omega
        obtain ⟨ih1, ih2, ih3, ih4, ih5, ih6⟩ := ih (goAdd t offset u) hv' hy' hfuel'
        have hunf : timelineLoop offset u e (fuel + 1) t =
            t :: timelineLoop offset u e fuel (goAdd t offset u) := by
          rw [timelineLoop, if_pos hle]
        rw [hunf]
        have hhd : ∀ y ∈ (timelineLoop offset u e fuel (goAdd t offset u)).head?,
            goAdd t offset u = y := by
          intro y hy2
          have hne : timelineLoop offset u e fuel (goAdd t offset u) ≠ [] := by
            intro hnil2
            rw [hnil2] at hy2
            simp at hy2
          have := ih2 hne
          rw [Option.mem_def, this] at hy2
          exact Option.some.inj hy2
        refine ⟨?_, fun _ => rfl, ?_, ?_, ?_, ?_⟩
        · constructor
          · intro hcons
            exact absurd hcons (List.cons_ne_nil _ _)
          · intro hlt
            exact absurd hlt (not_lt.mpr hle)
        · rw [List.chain'_cons']
          exact ⟨hhd, ih3⟩
        · rw [List.chain'_cons']
          refine ⟨?_, ih4⟩
          intro y hy2
          rw [← hhd y hy2]
          exact hinc
        · intro x hx
          rcases List.mem_cons.mp hx with rfl | hx'
          · exact hle
          · exact ih5 x hx'
        · intro y hny
          cases hrest : timelineLoop offset u e fuel (goAdd t offset u) with
          | nil =>
              rw [hrest] at hny
              simp at hny
              rw [← hny]
              exact ih1.mp hrest
          | cons c l =>
              rw [hrest] at hny
              rw [List.getLast?_cons_cons] at hny
              apply ih6 y
              rw [hrest]
              exact hny
      · have hnil : timelineLoop offset u e (fuel + 1) t = [] := by
          rw [timelineLoop, if_neg hle]
        rw [hnil]
        refine ⟨⟨fun _ => by omega, fun _ => rfl⟩, fun h => absurd rfl h, ?_, ?_, ?_, ?_⟩
        · exact List.chain'_nil
        · exact List.chain'_nil
        · intro x hx
          exact absurd hx (List.not_mem_nil x)
        · intro y hny
          exact absurd hny (by simp)

/-- **C8.**  For every instant `a` (valid, nonnegative year), every instant
`b`, every offset `≥ 1` and every unit, `Timeline(a, b, o, u)` is empty
exactly when `Floor(b) < Floor(a)`; otherwise it starts at `Floor(a)`, each
consecutive pair satisfies `Add(p, o, u) = q`, the sequence is strictly
ascending, every element is `≤ Floor(b)`, and `Add` of the last element
exceeds `Floor(b)`. -/
theorem goTimeline_spec (bw : ℤ) (a b : DateTime) (offset : ℕ) (u : Unit')
    (hv : ValidDT a) (hy : 0 ≤ a.year) (ho : 1 ≤ offset) :
    (goTimeline bw a b offset u = [] ↔
      absSec (goFloor bw b offset u) < absSec (goFloor bw a offset u)) ∧
    (goTimeline bw a b offset u ≠ [] →
      (goTimeline bw a b offset u).head? = some (goFloor bw a offset u)) ∧
    List.Chain' (fun p q => goAdd p offset u = q) (goTimeline bw a b offset u) ∧
    List.Chain' (fun p q => absSec p < absSec q) (goTimeline bw a b offset u) ∧
    (∀ x ∈ goTimeline bw a b offset u, absSec x ≤ absSec (goFloor bw b offset u)) ∧
    (∀ y, (goTimeline bw a b offset u).getLast? = some y →
      absSec (goFloor bw b offset u) < absSec (goAdd y offset u)) := by
  obtain ⟨hvs, hys⟩ := goFloor_valid bw a offset u hv hy ho
  have hfuel : absSec (goFloor bw b offset u) < absSec (goFloor bw a offset u) +
      timelineFuel (goFloor bw a offset u) (goFloor bw b offset u) := by
    unfold timelineFuel
    omega
  exact timelineLoop_spec offset u ho (goFloor bw b offset u)
    (timelineFuel (goFloor bw a offset u) (goFloor bw b offset u))
    (goFloor bw a offset u) hvs hys hfuel

/-- Witness for the Timeline theorem: the three civil days 2025-01-15 through
2025-01-17 at daily granularity. -/
theorem goTimeline_spec_witness :
    ValidDT ⟨2025, 14, 38265⟩ ∧ (0 : ℤ) ≤ (⟨2025, 14, 38265⟩ : DateTime).year ∧
      (goTimeline 1 ⟨2025, 14, 38265⟩ ⟨2025, 16, 0⟩ 1 Unit'.day = [] ↔
        absSec (goFloor 1 ⟨2025, 16, 0⟩ 1 Unit'.day) <
          absSec (goFloor 1 ⟨2025, 14, 38265⟩ 1 Unit'.day)) :=
  ⟨⟨by decide, by decide⟩, by decide,
    (goTimeline_spec 1 ⟨2025, 14, 38265⟩ ⟨2025, 16, 0⟩ 1 Unit'.day
      ⟨by decide, by decide⟩ (by decide) (by decide)).1⟩

/-- **C5, counterexample.**  The mapping `{"": 1}` has a non-map leaf and no
key containing a dot, yet `Unpack(Pack({"": 1}))` is the empty mapping
(`Unpack` silently skips empty keys), so the round-trip law as claimed fails
for it. -/
theorem unpack_pack_empty_key_fails :
    Unpack (Pack [([], Value.num 1)]) = [] ∧
      ([([], Value.num 1)] : ValueMap) ≠ [] := by
  constructor
  · show unpackGo [] (packWithPrefix [([], Value.num 1)] []) = []
    rw [packWithPrefix_cons_nonmap _ _ _ _ (fun _ hh => Value.noConfusion hh),
      packWithPrefix_nil]
    rfl
  · simp

/-- **C5 (amended).**  For every nested mapping whose keys are, at every
nesting level, non-empty, dot-free and distinct, and whose leaves are
non-map values (no empty sub-map), `Unpack (Pack m) = m`. -/
theorem unpack_pack_roundtrip (m : List (Str × Value))
    (hwf : wfEntries m = true) : Unpack (Pack m) = m := by
  have := unpack_pack_aux m hwf [] (by simp)
  simpa [Unpack, Pack] using this

/-- **C5, witness**: a two-level mapping round-trips. -/
theorem unpack_pack_roundtrip_witness :
    Unpack (Pack [(['a'], Value.vmap [(['x'], Value.num 1)]),
      (['b'], Value.num 2)]) =
      [(['a'], Value.vmap [(['x'], Value.num 1)]), (['b'], Value.num 2)] :=
  unpack_pack_roundtrip _ (by rfl)

/-! ## Keys, drivers, buffer and write orchestration
(`src/key.go`, `src/driver_sqlite.go`, `src/transponder.go`,
`src/unnamed/part_001`, `src/unnamed/part_010`) -/

/-- `Key` from `src/key.go`; the `At` pointer is an optional instant. -/
structure GoKey where
  pre : Str
  key : Str
  trackingKey : Str
  granularity : Str
  at' : Option DateTime

/-- `Key.SystemTrackingKey` from `src/key.go`: the tracking override when
non-empty, the logical key otherwise. -/
def systemTrackingKey (k : GoKey) : Str :=
  if k.trackingKey = [] then k.key else k.trackingKey

/-- `systemKeyName` from `src/driver_sqlite.go`. -/
def systemKeyName : Str :=
  ['_', '_', 's', 'y', 's', 't', 'e', 'm', '_', '_', 'k', 'e', 'y', '_', '_']

/-- `systemDataFor` from `src/driver_sqlite.go`: the packed system-tracking
payload `Pack` of a map carrying `count` and a nested `keys` map. -/
def systemDataFor (key : Str) (count : ℚ) : ValueMap :=
  Pack [(['c', 'o', 'u', 'n', 't'], Value.num count),
        (['k', 'e', 'y', 's'], Value.vmap [(key, Value.num count)])]

/-- The per-call write effect of `SQLiteDriver.writeWithOperation`
(`src/driver_sqlite.go`): the list of `(bucket key, packed data, op)`
submissions it performs.  Empty key list or empty packed map short-circuit to
no writes; with system tracking on, each primary write is followed by an
`inc` of `systemDataFor(k.Key, 1)` under the system key. -/
def sqliteWriteWithOperation (systemTracking : Bool) (keys : List GoKey)
    (values : ValueMap) (op : String) : List (GoKey × ValueMap × String) :=
  if keys.isEmpty then []
  else
    let packed := Pack values
    if packed.isEmpty then []
    else keys.flatMap (fun k =>
      (k, packed, op) ::
        (if systemTracking then
          [(⟨[], systemKeyName, [], k.granularity, k.at'⟩,
            systemDataFor k.key 1, "inc")]
        else []))

/-- The per-call write effect of `PostgresDriver.writeWithOperation`
(`src/transponder.go`): same shape, but the system write uses
`systemDataFor(key.SystemTrackingKey(), count)` and keeps the tracking key on
the system bucket key. -/
def postgresWriteWithOperation (systemTracking : Bool) (keys : List GoKey)
    (values : ValueMap) (op : String) (count : ℚ) :
    List (GoKey × ValueMap × String) :=
  if keys.isEmpty then []
  else
    let packed := Pack values
    if packed.isEmpty then []
    else keys.flatMap (fun k =>
      (k, packed, op) ::
        (if systemTracking then
          [(⟨[], systemKeyName, k.trackingKey, k.granularity, k.at'⟩,
            systemDataFor (systemTrackingKey k) count, "inc")]
        else []))

/-- `Config` from `src/unnamed/part_010`, restricted to the fields the write
path consults (`Driver` presence, `BufferEnabled`, `Granularities` with `nil`
as `none`, `BeginningOfWeek`). -/
structure GoConfig where
  hasDriver : Bool
  bufferEnabled : Bool
  granularities : Option (List Str)
  beginningOfWeek : ℤ

/-- `DefaultGranularities` from `src/unnamed/part_010`. -/
def defaultGranularities : List Str :=
  [['1', 'm'], ['1', 'h'], ['1', 'd'], ['1', 'w'], ['1', 'm', 'o'],
   ['1', 'q'], ['1', 'y']]

/-- The dedup-and-parse loop of `Config.EffectiveGranularities`. -/
def effGransLoop (seen : List Str) : List Str → List Str
  | [] => []
  | g :: rest =>
      if g ∈ seen then effGransLoop seen rest
      else if (ParseGranularity g).isSome then g :: effGransLoop (g :: seen) rest
      else effGransLoop seen rest

/-- `Config.EffectiveGranularities` from `src/unnamed/part_010`. -/
def effectiveGranularities (c : GoConfig) : List Str :=
  effGransLoop [] (c.granularities.getD defaultGranularities)

/-- The two write surfaces a submission can target. -/
inductive WriteTarget where
  | rawDriver
  | bufferStorage
  deriving DecidableEq

/-- `Config.Storage` from `src/unnamed/part_010`: the raw driver when
buffering is disabled, otherwise the buffer (or `nil` when the driver is
missing). -/
def configStorage (c : GoConfig) : Option WriteTarget :=
  if c.bufferEnabled = false then
    (if c.hasDriver then some WriteTarget.rawDriver else none)
  else if c.hasDriver = false then none
  else some WriteTarget.bufferStorage

/-- The key-building loop of `trackOrAssert` (`src/transponder.go`): one
bucketed key per valid configured granularity, floored at the instant. -/
def trackKeys (c : GoConfig) (key tk : Str) (t : DateTime) : List GoKey :=
  (effectiveGranularities c).filterMap (fun g =>
    match ParseGranularity g with
    | some (offset, u) =>
        if 0 < offset then
          some ⟨[], key, tk, g, some (goFloor c.beginningOfWeek t offset u)⟩
        else none
    | none => none)

/-- `trackOrAssert` from `src/transponder.go`: after validation it submits the
built keys in one call — to `cfg.Driver` (the raw driver field), which is
what the `cfg.Driver.Inc(keys, values)` / `cfg.Driver.Set(keys, values)`
lines denote. -/
def trackOrAssertGo (c : GoConfig) (key tk : Str) (t : DateTime) (op : String) :
    Except String (WriteTarget × String × List GoKey) :=
  if c.hasDriver = false then .error "config and driver required"
  else if op = "inc" then .ok (WriteTarget.rawDriver, op, trackKeys c key tk t)
  else if op = "set" then .ok (WriteTarget.rawDriver, op, trackKeys c key tk t)
  else .error "invalid op"

/-- `mergeIncrement` from `src/unnamed/part_001` (the fold over the incoming
entries, starting from a copy of the current map): nested maps recurse into
the existing map at the key (the failed type assertion yields the empty
map); numeric values add onto the stored float (zero when absent or
non-numeric); anything else is stored as-is. -/
def mergeIncGo : ValueMap → ValueMap → ValueMap
  | out, [] => out
  | out, (k, .vmap node) :: rest =>
      mergeIncGo (assocSet out k (.vmap (mergeIncGo
        (match assocLookup out k with
          | some (.vmap m) => m
          | _ => []) node))) rest
  | out, (k, v) :: rest =>
      match toFloat v with
      | some delta =>
          mergeIncGo (assocSet out k
            (.num ((toFloatOpt (assocLookup out k)).getD 0 + delta))) rest
      | none => mergeIncGo (assocSet out k v) rest

/-- `mergeIncrement` from `src/unnamed/part_001`. -/
def mergeIncrement (current incoming : ValueMap) : ValueMap :=
  mergeIncGo current incoming

theorem mergeIncGo_nil (out : ValueMap) : mergeIncGo out [] = out := by
  rw [mergeIncGo]

theorem mergeIncGo_cons_map (out : ValueMap) (k : Str)
    (node : List (Str × Value)) (rest : ValueMap) :
    mergeIncGo out ((k, .vmap node) :: rest) =
      mergeIncGo (assocSet out k (.vmap (mergeIncGo
        (match assocLookup out k with
          | some (.vmap m) => m
          | _ => []) node))) rest := by
  rw [mergeIncGo]

theorem mergeIncGo_cons_num (out : ValueMap) (k : Str) (q : ℚ)
    (rest : ValueMap) :
    mergeIncGo out ((k, .num q) :: rest) =
      mergeIncGo (assocSet out k
        (.num ((toFloatOpt (assocLookup out k)).getD 0 + q))) rest := by
  rw [mergeIncGo]
  · rfl
  · exact fun vm hh => Value.noConfusion hh

/-- Decimal rendering of `strconv.FormatInt(_, 10)`. -/
def intToStr (n : ℤ) : Str :=
  if n < 0 then '-' :: Nat.toDigits 10 n.natAbs else Nat.toDigits 10 n.natAbs

/-- `time.Time.Unix` in the model's civil coordinates (zone fixed at the
default GMT, where civil time and Unix time coincide up to the 1970 epoch). -/
def goUnix (t : DateTime) : ℤ := absSec t - D 1970 * 86400

/-- `signatureFor` from `src/unnamed/part_001`. -/
def signatureFor (op : String) (keys : List GoKey) : Str :=
  List.intercalate ['|'] (op.toList :: keys.map (fun k =>
    List.intercalate [':'] [k.pre, k.key, k.granularity,
      (match k.at' with
        | some t => intToStr (goUnix t)
        | none => []),
      systemTrackingKey k]))

/-- `bufferedAction` from `src/unnamed/part_001`. -/
structure BufferedAction where
  operation : String
  keys : List GoKey
  values : ValueMap
  count : ℤ

/-- The mutable queue state of `Buffer` from `src/unnamed/part_001`
(`actionsBySig` in canonical insertion order, `actionsLinear`,
`operationCount`, the normalised `aggregate`/`size` options and the closed
flag). -/
structure BufferState where
  aggregate : Bool
  size : ℕ
  bySig : List (Str × BufferedAction)
  linear : List BufferedAction
  opCount : ℕ
  closed : Bool

/-- `NewBuffer` from `src/unnamed/part_001`: aggregation requires a
count-aware driver and a non-positive size falls back to 256. -/
def newBuffer (countAware : Bool) (aggregate : Bool) (size : ℤ) : BufferState :=
  { aggregate := aggregate && countAware,
    size := if size ≤ 0 then 256 else size.toNat,
    bySig := [], linear := [], opCount := 0, closed := false }

/-- First-occurrence lookup in `actionsBySig`. -/
def sigFind (m : List (Str × BufferedAction)) (sig : Str) : Option BufferedAction :=
  (m.find? (fun e => decide (e.1 = sig))).map (·.2)

/-- Map update on `actionsBySig` with canonical insertion order. -/
def sigSet : List (Str × BufferedAction) → Str → BufferedAction →
    List (Str × BufferedAction)
  | [], sig, a => [(sig, a)]
  | (k, b) :: rest, sig, a =>
      if k = sig then (k, a) :: rest else (k, b) :: sigSet rest sig a

/-- `Buffer.storeActionLocked` from `src/unnamed/part_001`: aggregating
states merge `inc` values (and replace `set` values) into the action stored
under the call signature and bump its count; otherwise the action is
appended linearly; `operationCount` always increments. -/
def storeAction (st : BufferState) (op : String) (keys : List GoKey)
    (values : ValueMap) : BufferState :=
  if st.aggregate then
    let sig := signatureFor op keys
    match sigFind st.bySig sig with
    | some a =>
        let newVals :=
          if op = "inc" then mergeIncrement a.values values
          else if op = "set" then values
          else a.values
        { st with
            bySig := sigSet st.bySig sig
              { a with values := newVals, count := a.count + 1 },
            opCount := st.opCount + 1 }
    | none =>
        { st with
            bySig := sigSet st.bySig sig ⟨op, keys, values, 1⟩,
            opCount := st.opCount + 1 }
  else
    { st with linear := st.linear ++ [⟨op, keys, values, 1⟩],
              opCount := st.opCount + 1 }

/-- `Buffer.enqueue` from `src/unnamed/part_001`: an empty key list or an
empty *raw* values map returns `nil` without touching the queue; a closed
buffer errors; otherwise the action is stored and a flush is requested when
`operationCount` reaches the size threshold. -/
def bufferEnqueue (st : BufferState) (op : String) (keys : List GoKey)
    (values : ValueMap) : Except String (BufferState × Bool) :=
  if keys.isEmpty || values.isEmpty then .ok (st, false)
  else if st.closed then .error "buffer is closed"
  else
    let st' := storeAction st op keys values
    .ok (st', decide (st'.size ≤ st'.opCount))

/-- `Buffer.drainActions` from `src/unnamed/part_001`. -/
def drainActions (st : BufferState) : List BufferedAction × BufferState :=
  if st.opCount = 0 then ([], st)
  else
    ((if st.aggregate then st.bySig.map (·.2) else st.linear),
     { st with bySig := [], linear := [], opCount := 0 })

/-- A call observed by the driver behind the buffer. -/
inductive DriverCall where
  | incCount (keys : List GoKey) (values : ValueMap) (count : ℤ)
  | setCount (keys : List GoKey) (values : ValueMap) (count : ℤ)
  | inc (keys : List GoKey) (values : ValueMap)
  | set (keys : List GoKey) (values : ValueMap)

/-- `Buffer.dispatchAction` from `src/unnamed/part_001`: a count-aware driver
receives one `IncCount`/`SetCount` carrying the multiplicity; otherwise the
plain call is repeated `count` times. -/
def dispatchAction (countAware : Bool) (a : BufferedAction) :
    Except String (List DriverCall) :=
  let count := if a.count ≤ 0 then 1 else a.count
  if countAware then
    if a.operation = "inc" then .ok [DriverCall.incCount a.keys a.values count]
    else if a.operation = "set" then .ok [DriverCall.setCount a.keys a.values count]
    else .error "invalid operation"
  else
    if a.operation = "inc" then
      .ok (List.replicate count.toNat (DriverCall.inc a.keys a.values))
    else if a.operation = "set" then
      .ok (List.replicate count.toNat (DriverCall.set a.keys a.values))
    else .error "invalid operation"

/-- `Buffer.Flush` from `src/unnamed/part_001`: drain the queue and dispatch
every drained action in order. -/
def bufferFlush (countAware : Bool) (st : BufferState) :
    Except String (List DriverCall × BufferState) := do
  let (actions, st') := drainActions st
  let calls ← actions.mapM (dispatchAction countAware)
  return (calls.flatten, st')

/-- The configuration of the buffer-enabled sub-test of
`TestTrack_BufferEnabledAndDisabledModes` (`src/ops_configuration_test.go`):
driver present, `BufferEnabled = true`, granularities `["1h"]`, Monday week
start. -/
def cfgBufEnabled : GoConfig :=
  { hasDriver := true, bufferEnabled := true,
    granularities := some [['1', 'h']], beginningOfWeek := 1 }

/-- **C1.**  With a non-nil driver and `BufferEnabled = true`,
`cfg.Storage()` is the buffer, yet every `Track`/`Assert` submission goes to
the raw `cfg.Driver` — `trackOrAssert` never consults `cfg.Storage()` — so
the claimed "submitted in a single call to the storage returned by
`cfg.Storage()`" is false for every such configuration: the write bypasses
the buffer. -/
theorem track_submits_to_raw_driver_not_storage :
    configStorage cfgBufEnabled = some WriteTarget.bufferStorage ∧
      (∀ (key tk : Str) (t : DateTime),
        trackOrAssertGo cfgBufEnabled key tk t "inc" =
          .ok (WriteTarget.rawDriver, "inc", trackKeys cfgBufEnabled key tk t) ∧
        trackOrAssertGo cfgBufEnabled key tk t "set" =
          .ok (WriteTarget.rawDriver, "set", trackKeys cfgBufEnabled key tk t)) ∧
      WriteTarget.rawDriver ≠ WriteTarget.bufferStorage := by
  refine ⟨rfl, fun key tk t => ⟨rfl, rfl⟩, fun h => WriteTarget.noConfusion h⟩

/-- The key of `TestTrack_UntrackedUsesSharedSystemTrackingKey`
(`src/ops_configuration_test.go`): logical key `events`, tracking override
`__untracked__`, granularity `1h`, bucket 2025-02-01T11:00. -/
def kEx : GoKey :=
  ⟨[], ['e', 'v', 'e', 'n', 't', 's'],
   ['_', '_', 'u', 'n', 't', 'r', 'a', 'c', 'k', 'e', 'd', '_', '_'],
   ['1', 'h'], some ⟨2025, 31, 39600⟩⟩

theorem systemDataFor_eval (key : Str) (count : ℚ) :
    systemDataFor key count =
      [(['c', 'o', 'u', 'n', 't'], Value.num count),
       (['k', 'e', 'y', 's'] ++ '.' :: key, Value.num count)] := by
  unfold systemDataFor Pack
  rw [packWithPrefix_cons_nonmap _ _ _ _ (fun _ h => Value.noConfusion h),
    packWithPrefix_cons_map, packWithPrefix_nil,
    packWithPrefix_cons_nonmap _ _ _ _ (fun _ h => Value.noConfusion h),
    packWithPrefix_nil]
  simp

theorem pack_count_one :
    Pack [(['c', 'o', 'u', 'n', 't'], Value.num 1)] =
      [(['c', 'o', 'u', 'n', 't'], Value.num 1)] := by
  show packWithPrefix [(['c', 'o', 'u', 'n', 't'], Value.num 1)] [] = _
  rw [packWithPrefix_cons_nonmap _ _ _ _ (fun _ h => Value.noConfusion h),
    packWithPrefix_nil]
  simp

/-- **C3.**  The Postgres driver's secondary write follows the claim — it
increments `count` and the per-source key by the multiplicity, with the
source being the tracking override — but the SQLite driver's does not: it
writes `systemDataFor(k.Key, 1)`, ignoring both the tracking override and
the multiplicity, so at the untracked key with multiplicity 2 SQLite's
system payload differs from the claimed one. -/
theorem sqlite_system_write_ignores_override_and_count :
    postgresWriteWithOperation true [kEx]
        [(['c', 'o', 'u', 'n', 't'], Value.num 1)] "inc" 2 =
      [(kEx, [(['c', 'o', 'u', 'n', 't'], Value.num 1)], "inc"),
       (⟨[], systemKeyName, kEx.trackingKey, kEx.granularity, kEx.at'⟩,
        systemDataFor (systemTrackingKey kEx) 2, "inc")] ∧
    sqliteWriteWithOperation true [kEx]
        [(['c', 'o', 'u', 'n', 't'], Value.num 1)] "inc" =
      [(kEx, [(['c', 'o', 'u', 'n', 't'], Value.num 1)], "inc"),
       (⟨[], systemKeyName, [], kEx.granularity, kEx.at'⟩,
        systemDataFor kEx.key 1, "inc")] ∧
    systemDataFor kEx.key 1 ≠ systemDataFor (systemTrackingKey kEx) 2 := by
  refine ⟨?_, ?_, ?_⟩
  · unfold postgresWriteWithOperation
    rw [pack_count_one]
    rfl
  · unfold sqliteWriteWithOperation
    rw [pack_count_one]
    rfl
  · rw [systemDataFor_eval, systemDataFor_eval]
    intro h
    have h1 := List.head_eq_of_cons_eq h
    simp only [Prod.mk.injEq, Value.num.injEq] at h1
    exact absurd h1.2 (by norm_num)

/-- The first `Inc` payload of the buffer-aggregation scenario. -/
def v9a : ValueMap :=
  [(['c', 'o', 'u', 'n', 't'], Value.num 1),
   (['n', 'e', 's', 't', 'e', 'd'],
    Value.vmap [(['r', 'e', 'q', 'u', 'e', 's', 't', 's'], Value.num 1)])]

/-- The second `Inc` payload of the buffer-aggregation scenario. -/
def v9b : ValueMap :=
  [(['c', 'o', 'u', 'n', 't'], Value.num 2),
   (['n', 'e', 's', 't', 'e', 'd'],
    Value.vmap [(['r', 'e', 'q', 'u', 'e', 's', 't', 's'], Value.num 3)])]

/-- Two aggregated `Inc` calls on the same key followed by a `Flush`
(`size = 10`, `aggregate = true`, count-aware driver). -/
def bufferRun9 : Except String (List DriverCall) := do
  let (st1, _) ← bufferEnqueue (newBuffer true true 10) "inc" [kEx] v9a
  let (st2, _) ← bufferEnqueue st1 "inc" [kEx] v9b
  let (calls, _) ← bufferFlush true st2
  return calls

/-- **C9.**  With aggregation on and a count-aware driver, two `Inc` calls
with values `count 1, nested requests 1` and `count 2, nested requests 3` on
the same key merge under their shared signature — values summed numerically,
recursing into the nested map, multiplicity bumped per call — so `Flush`
issues exactly one `IncCount` with values `count 3, nested requests 4` and
count 2. -/
theorem buffer_aggregates_incs_with_count :
    bufferRun9 = .ok [DriverCall.incCount [kEx]
      [(['c', 'o', 'u', 'n', 't'], Value.num 3),
       (['n', 'e', 's', 't', 'e', 'd'],
        Value.vmap [(['r', 'e', 'q', 'u', 'e', 's', 't', 's'], Value.num 4)])]
      2] := by
  have hne : ¬ ((['c', 'o', 'u', 'n', 't'] : Str) = ['n', 'e', 's', 't', 'e', 'd']) := by
    decide
  have hmerge : mergeIncrement v9a v9b =
      [(['c', 'o', 'u', 'n', 't'], Value.num 3),
       (['n', 'e', 's', 't', 'e', 'd'],
        Value.vmap [(['r', 'e', 'q', 'u', 'e', 's', 't', 's'], Value.num 4)])] := by
    show mergeIncGo v9a v9b = _
    rw [show v9b = [(['c', 'o', 'u', 'n', 't'], Value.num 2),
      (['n', 'e', 's', 't', 'e', 'd'],
       Value.vmap [(['r', 'e', 'q', 'u', 'e', 's', 't', 's'], Value.num 3)])] from rfl]
    rw [mergeIncGo_cons_num, mergeIncGo_cons_map, mergeIncGo_cons_num,
      mergeIncGo_nil, mergeIncGo_nil]
    norm_num [v9a, assocSet, assocLookup, toFloatOpt, toFloat, hne]
  have h0 : bufferRun9 =
      .ok [DriverCall.incCount [kEx] (mergeIncrement v9a v9b) 2] := rfl
  rw [h0, hmerge]

/-- **C10, counterexample.**  A values map holding only an empty sub-map
packs to the empty map, so every driver write with it is a no-op, but
`Buffer.enqueue` tests the *raw* values map, so the same call on the buffer
does enqueue a buffered action — the claimed "enqueues no buffered action"
fails for the buffer surface. -/
theorem buffer_enqueues_values_that_pack_empty :
    Pack [(['a'], Value.vmap [])] = [] ∧
    sqliteWriteWithOperation true [kEx] [(['a'], Value.vmap [])] "inc" = [] ∧
    postgresWriteWithOperation true [kEx] [(['a'], Value.vmap [])] "inc" 1 = [] ∧
    (bufferEnqueue (newBuffer true true 10) "inc" [kEx]
        [(['a'], Value.vmap [])]).map
      (fun p => ((drainActions p.1).1, p.2)) =
      .ok ([⟨"inc", [kEx], [(['a'], Value.vmap [])], 1⟩], false) := by
  have hpack : Pack [(['a'], Value.vmap [])] = [] := by
    show packWithPrefix [(['a'], Value.vmap [])] [] = []
    rw [packWithPrefix_cons_map, packWithPrefix_nil, packWithPrefix_nil]
    rfl
  refine ⟨hpack, ?_, ?_, rfl⟩
  · unfold sqliteWriteWithOperation
    rw [hpack]
    rfl
  · unfold postgresWriteWithOperation
    rw [hpack]
    rfl

/-- **C10 (amended).**  The driver write surfaces are silent no-ops exactly
as claimed (empty key list or empty *packed* map), but the buffer skips the
enqueue only when the key list or the *raw* values map is empty. -/
theorem write_empty_noop_spec (systemTracking : Bool) (keys : List GoKey)
    (values : ValueMap) (op : String) (count : ℚ) (st : BufferState)
    (hd : keys = [] ∨ Pack values = []) (hb : keys = [] ∨ values = []) :
    sqliteWriteWithOperation systemTracking keys values op = [] ∧
    postgresWriteWithOperation systemTracking keys values op count = [] ∧
    bufferEnqueue st op keys values = .ok (st, false) := by
  refine ⟨?_, ?_, ?_⟩
  · rcases hd with h | h
    · simp [sqliteWriteWithOperation, h]
    · simp [sqliteWriteWithOperation, h]
  · rcases hd with h | h
    · simp [postgresWriteWithOperation, h]
    · simp [postgresWriteWithOperation, h]
  · rcases hb with h | h
    · simp [bufferEnqueue, h]
    · simp [bufferEnqueue, h]

/-- Witness for the no-op theorem: the empty key list. -/
theorem write_empty_noop_spec_witness :
    (([] : List GoKey) = [] ∨ Pack [(['x'], Value.num 1)] = []) ∧
      (sqliteWriteWithOperation true [] [(['x'], Value.num 1)] "inc" = [] ∧
       postgresWriteWithOperation true [] [(['x'], Value.num 1)] "inc" 1 = [] ∧
       bufferEnqueue (newBuffer true true 10) "inc" []
         [(['x'], Value.num 1)] = .ok (newBuffer true true 10, false)) :=
  ⟨Or.inl rfl,
   write_empty_noop_spec true [] [(['x'], Value.num 1)] "inc" 1
     (newBuffer true true 10) (Or.inl rfl) (Or.inl rfl)⟩

end TrifleStats
